import Mathlib

/-!
Verification of the evidence-gated recommendation pipeline of the
planning-engine-api repository.

The Python sources are shallowly embedded: dicts become structures (an
absent or None key becomes an Option field, or the empty string / empty
list where Python truthiness collapses the two), floats become ℚ with
exact arithmetic, and every function is translated line by line from the
module named in its doc comment.
-/

namespace PlanaSpec

/-- Lowercase a string character by character (models Python str.lower on the
ASCII texts this pipeline handles). -/
def lowerStr (s : String) : String := ⟨s.data.map Char.toLower⟩

/-- Leading-match test on char lists: n is an initial segment of h. -/
def startsWithB : List Char → List Char → Bool
  | [], _ => true
  | _ :: _, [] => false
  | a :: as, b :: bs => a == b && startsWithB as bs

/-- Occurrence test on char lists: n occurs contiguously inside h. -/
def occursInB (n : List Char) : List Char → Bool
  | [] => startsWithB n []
  | b :: bs => startsWithB n (b :: bs) || occursInB n bs

/-- Substring test: needle occurs contiguously inside hay
(models Python needle in hay). -/
def containsSub (needle hay : String) : Bool := occursInB needle.data hay.data

/-- Test whether any of the (already lowercase) literals occurs in t. -/
def anySub (kws : List String) (t : String) : Bool := kws.any (fun k => containsSub k t)

/-- Python x or y on lists: an empty (falsy) first operand falls through. -/
def orList {α : Type} (a b : List α) : List α := if a.isEmpty then b else a

/-- Python (a or b or "") on two optional strings: None and "" are both falsy. -/
def orStr (a b : Option String) : String :=
  match a with
  | some s => if s = "" then b.getD "" else s
  | none => b.getD ""

/-! ## src/plana/engine/src/plana_engine/report/judgment.py -/

/-- Evidence entry as read by judgment.py: only the "score" key is consulted
(via float(e.get("score") or 0.0)). -/
structure JEv where
  score : Option ℚ
deriving DecidableEq, Repr

/-- The policy block consumed by make_recommendation.  A falsy block
(None or empty dict) is modelled by ok = false, since the source treats
not policy_block and not policy_block.get("ok") identically. -/
structure JPolicyBlock where
  ok : Bool
  evidence : List JEv
  results : List JEv
deriving DecidableEq, Repr

/-- One precedent case record, as read by _case_strength and the tilt loop.
Absent text keys are modelled by "" (Python or treats None and "" alike). -/
structure JCaseResult where
  decision : String
  reasons_text : String
  officer_report_text : String
  conditions_text : String
  score : Option ℚ
deriving DecidableEq, Repr

/-- The precedent block consumed by make_recommendation; reason = "" models an
absent reason. -/
structure JCaseBlock where
  ok : Bool
  reason : String
  results : List JCaseResult
deriving DecidableEq, Repr

/-- Insert into a descending-sorted list of rationals. -/
def insertDescQ (x : ℚ) : List ℚ → List ℚ
  | [] => [x]
  | y :: ys => if y ≤ x then x :: y :: ys else y :: insertDescQ x ys

/-- Sort rationals in descending order (models scores.sort(reverse=True)). -/
def sortDescQ (l : List ℚ) : List ℚ := l.foldr insertDescQ []

/-- Models _avg_top_scores: 0.0 on an empty list, otherwise the average of the
top n scores, sum(top) / max(1, len(top)). -/
def avgTopScores (scores : List ℚ) (n : ℕ) : ℚ :=
  if scores.isEmpty then 0
  else
    let top := (sortDescQ scores).take n
    top.sum / (max 1 top.length : ℚ)

/-- The score list [float(e.get("score") or 0.0) for e in evidence]. -/
def jscores (ev : List JEv) : List ℚ := ev.map (fun e => e.score.getD 0)

/-- Models _policy_strength: (ok, avg-of-top-6, reason). -/
def policyStrength (pb : JPolicyBlock) : Bool × ℚ × String :=
  if !pb.ok then (false, 0, "no_policy_results")
  else
    let ev := orList pb.evidence pb.results
    let avg := avgTopScores (jscores ev) 6
    if ev.length < 3 then (false, avg, "policy_results_too_few")
    else if avg < 3 then (false, avg, "policy_scores_too_low")
    else (true, avg, "ok")

/-- Models _case_strength: (ok, avg-of-top-5, reason). -/
def caseStrength : Option JCaseBlock → Bool × ℚ × String
  | none => (false, 0, "precedents_not_enabled")
  | some cb =>
    if !cb.ok then (false, 0, if cb.reason = "" then "no_case_results" else cb.reason)
    else
      let ev := cb.results
      let avg := avgTopScores (ev.map (fun c => c.score.getD 0)) 5
      if ev.length < 1 then (false, avg, "case_results_too_few")
      else if avg < 2 then (false, avg, "case_scores_too_low")
      else (true, avg, "ok")

def AMENITY_WORDS : List String :=
  ["residential amenity", "privacy", "overlooking", "daylight", "sunlight", "outlook", "noise", "disturbance"]

def DESIGN_WORDS : List String := ["design", "character", "scale", "massing", "materials", "appearance"]

def HERITAGE_WORDS : List String := ["heritage", "listed", "conservation area", "setting", "significance"]

def HIGHWAYS_WORDS : List String := ["highway", "parking", "traffic", "access", "visibility", "junction"]

def FLOOD_WORDS : List String := ["flood", "drainage", "surface water", "suds"]

def TREES_WORDS : List String := ["tree", "tpo", "arboricultural", "hedgerow"]

/-- Order-preserving deduplication (the final loop of detect_issues). -/
def dedupAux (seen : List String) : List String → List String
  | [] => []
  | x :: xs => if x ∈ seen then dedupAux seen xs else x :: dedupAux (x :: seen) xs

def dedupPreserve (l : List String) : List String := dedupAux [] l

/-- Models detect_issues. -/
def detectIssues (proposalText : String) : List String :=
  let t := lowerStr proposalText
  let issues :=
    (if anySub ["rear extension", "single storey", "two storey", "loft", "dormer", "outbuilding", "porch"] t
      then ["householder"] else [])
    ++ (if anySub AMENITY_WORDS t then ["amenity"] else [])
    ++ (if anySub DESIGN_WORDS t then ["design"] else [])
    ++ (if anySub HERITAGE_WORDS t then ["heritage"] else [])
    ++ (if anySub HIGHWAYS_WORDS t then ["highways"] else [])
    ++ (if anySub FLOOD_WORDS t then ["flood"] else [])
    ++ (if anySub TREES_WORDS t then ["trees"] else [])
  let issues := if issues.isEmpty then ["general"] else issues
  dedupPreserve issues

def approvedPlansCondition : String :=
  "The development hereby approved shall be carried out in accordance with the approved plans and supporting documents."

def materialsCondition : String :=
  "External materials shall match the existing dwelling unless otherwise agreed in writing by the Local Planning Authority."

def glazingCondition : String :=
  "Any side-facing windows serving habitable rooms shall be obscure glazed and non-opening below 1.7m from finished floor level."

/-- Models _draft_householder_conditions (its policy_evidence parameter is
never read by the source, and is kept for shape). -/
def draftHouseholderConditions (_policyEvidence : List JEv) (proposalText : String) : List String :=
  let t := lowerStr proposalText
  [approvedPlansCondition]
  ++ (if containsSub "materials" t || containsSub "match existing" t then [materialsCondition] else [])
  ++ (if containsSub "privacy" t || containsSub "overlooking" t then [glazingCondition] else [])

def harmWords : List String := ["loss of light", "overlooking", "overbearing", "unacceptable"]

/-- The harm-flag scan over the lowercased proposal text. -/
def harmFlags (proposalText : String) : Bool := anySub harmWords (lowerStr proposalText)

def amenityHarmTerms : List String := ["loss of daylight", "overbearing", "privacy", "overlooking"]

/-- reasons = (c.get("reasons_text") or c.get("officer_report_text") or "") -/
def caseReasonsText (c : JCaseResult) : String :=
  if c.reasons_text = "" then c.officer_report_text else c.reasons_text

/-- One precedent drives the refuse tilt: "refus" in its decision and an
amenity-harm term in its reasons text. -/
def refusedAmenityCase (c : JCaseResult) : Bool :=
  containsSub "refus" (lowerStr c.decision)
  && anySub amenityHarmTerms (lowerStr (caseReasonsText c))

/-- One precedent drives the conditions tilt (approved decision mentioning
materials/glazing/plans conditions). -/
def approvedCondsCase (c : JCaseResult) : Bool :=
  containsSub "approved" (lowerStr c.decision)
  && anySub ["materials", "obscure", "glazing", "plans"] (lowerStr c.conditions_text)

/-- tilt_refuse: starts False, set by any of the first 5 case results, only
examined at all when case_ok holds. -/
def tiltRefuse (caseOk : Bool) (results : List JCaseResult) : Bool :=
  caseOk && (results.take 5).any refusedAmenityCase

/-- tilt_conditions: initialised to True by the source and only ever
reassigned to True inside the loop, hence constantly true. -/
def tiltConditions (caseOk : Bool) (results : List JCaseResult) : Bool :=
  true || (caseOk && (results.take 5).any approvedCondsCase)

/-- The recommendation dict built by make_recommendation.  The source never
writes a "confidence" key, so the confidence field is an Option that the
embedding must always set to none; the three signals entries are inlined. -/
structure Recommendation where
  decision : String
  reason : Option String
  confidence : Option ℚ
  issues : List String
  policy_avg_score : ℚ
  case_avg_score : ℚ
  case_reason : String
  draft_conditions : List String
  draft_refusal_reasons : List String
deriving DecidableEq, Repr

def refusalBoilerplate : String :=
  "The proposal would result in unacceptable harm to the residential amenity of neighbouring occupiers by reason of loss of light / overbearing impact / loss of privacy, contrary to the relevant Development Plan policies."

/-- Models make_recommendation. -/
def makeRecommendation (proposalText : String) (pb : JPolicyBlock)
    (cb : Option JCaseBlock) (requirePrecedent : Bool) : Recommendation :=
  let issues := detectIssues proposalText
  let ps := policyStrength pb
  let cs := caseStrength cb
  if !ps.1 then
    { decision := "insufficient_evidence"
      reason := some ("policy_retrieval_weak:" ++ ps.2.2)
      confidence := none
      issues := issues
      policy_avg_score := ps.2.1, case_avg_score := cs.2.1, case_reason := cs.2.2
      draft_conditions := [], draft_refusal_reasons := [] }
  else if requirePrecedent && !cs.1 then
    { decision := "insufficient_evidence"
      reason := some ("precedent_retrieval_weak:" ++ cs.2.2)
      confidence := none
      issues := issues
      policy_avg_score := ps.2.1, case_avg_score := cs.2.1, case_reason := cs.2.2
      draft_conditions := [], draft_refusal_reasons := [] }
  else
    let caseResults := (cb.map JCaseBlock.results).getD []
    if tiltRefuse cs.1 caseResults && harmFlags proposalText then
      { decision := "refuse", reason := none, confidence := none, issues := issues
        policy_avg_score := ps.2.1, case_avg_score := cs.2.1, case_reason := cs.2.2
        draft_conditions := [], draft_refusal_reasons := [refusalBoilerplate] }
    else
      let conds :=
        if tiltConditions cs.1 caseResults then draftHouseholderConditions pb.evidence proposalText
        else []
      { decision := if conds.isEmpty then "approve" else "approve_with_conditions"
        reason := none, confidence := none, issues := issues
        policy_avg_score := ps.2.1, case_avg_score := cs.2.1, case_reason := cs.2.2
        draft_conditions := conds, draft_refusal_reasons := [] }

/-! ## src/plana/engine/src/plana_engine/judgement/weighing_balance.py -/

/-- A retrieved policy chunk as read by weigh_balance: its "score" and "text"
keys. -/
structure WBItem where
  score : Option ℚ
  text : Option String
deriving DecidableEq, Repr

/-- The structured object weigh_balance always returns. -/
structure WBOut where
  decision : String
  confidence : ℚ
  reasons_for : List String
  reasons_against : List String
  suggested_conditions : List String
  issues : List String
deriving DecidableEq, Repr

/-- Models _topic_from_text. -/
def topicFromText (q : String) : String :=
  let ql := lowerStr q
  if anySub ["rear extension", "single storey", "two storey", "loft", "dormer", "outbuilding", "garage", "porch"] ql
    then "householder"
  else if anySub ["listed", "conservation area", "heritage", "historic"] ql then "heritage"
  else if anySub ["parking", "traffic", "highway", "visibility", "access", "junction"] ql then "highways"
  else if anySub ["flood", "surface water", "drainage", "suds"] ql then "flood"
  else "general"

/-- scores = [float(r.get("score") or 0.0) for r in results] -/
def wbScores (results : List WBItem) : List ℚ := results.map (fun r => r.score.getD 0)

/-- avg_score = sum(scores) / max(len(scores), 1) -/
def wbAvg (results : List WBItem) : ℚ := (wbScores results).sum / (max results.length 1 : ℚ)

/-- top_score = max(scores) if scores else 0.0 -/
def wbTop (results : List WBItem) : ℚ :=
  match wbScores results with
  | [] => 0
  | s :: ss => ss.foldl max s

/-- text_blob joins the lowercased first 4000 characters of each result text. -/
def wbTextBlob (results : List WBItem) : String :=
  String.intercalate "\n" (results.map (fun r => lowerStr ((r.text.getD "").take 4000)))

/-- The issue list extracted from the evidence text blob. -/
def wbIssues (proposalText : String) (results : List WBItem) : List String :=
  let topic := topicFromText proposalText
  let blob := wbTextBlob results
  (if topic = "householder" then
    (if anySub ["amenity", "privacy", "overlooking", "daylight", "sunlight", "outlook"] blob
      then ["Neighbour amenity (privacy/daylight/outlook)"] else [])
    ++ (if anySub ["design", "scale", "materials", "character"] blob
      then ["Design/scale/materials/character"] else [])
   else [])
  ++ (if topic = "heritage" then ["Heritage significance/setting"] else [])
  ++ (if topic = "highways" then ["Highway safety/parking/access"] else [])
  ++ (if topic = "flood" then ["Flood risk/surface water drainage"] else [])

/-- The v1 decision rules: (decision, confidence). -/
def wbDecision (avg top : ℚ) : String × ℚ :=
  if 4 ≤ avg ∧ (4.5 : ℚ) ≤ top then ("approve_with_conditions", 0.70)
  else if avg < 2.5 then ("insufficient_evidence", 0.25)
  else ("needs_officer_review", 0.45)

/-- Models weigh_balance.  Its policy_block parameter is consulted only as
(policy_block or \x7b\x7d).get("results") or [], so the embedding takes the
results list. -/
def weighBalance (proposalText : String) (results : List WBItem) : WBOut :=
  if results.isEmpty then
    { decision := "insufficient_evidence", confidence := 0
      reasons_for := [], reasons_against := ["No policy evidence retrieved."]
      suggested_conditions := [], issues := [] }
  else
    let avg := wbAvg results
    let top := wbTop results
    let issues := wbIssues proposalText results
    let d := wbDecision avg top
    let reasonsFor :=
      if d.1 = "approve_with_conditions" then
        ["Policy evidence indicates the proposal can be acceptable subject to detailed design/amenity safeguards."]
        ++ (if "Neighbour amenity (privacy/daylight/outlook)" ∈ issues then
              ["Key amenity considerations are addressed through assessment against amenity-focused policies."] else [])
        ++ (if "Design/scale/materials/character" ∈ issues then
              ["Design/scale/materials can be controlled through conditions and adherence to approved plans."] else [])
      else []
    let reasonsAgainst :=
      if d.1 = "approve_with_conditions" then []
      else if d.1 = "needs_officer_review" then
        ["Policy evidence retrieved but requires officer judgement to weigh impacts and site context."]
        ++ (if issues.isEmpty then [] else ["Main issues flagged: " ++ String.intercalate ", " issues ++ "."])
      else ["Retrieval quality appears weak for drawing a conclusion; expand documents / improve retrieval filtering."]
    let conds :=
      if d.1 = "approve_with_conditions" then
        ["Works to be carried out in accordance with the approved plans.",
         "External materials to match existing dwelling unless otherwise agreed in writing by the LPA."]
        ++ (if "Neighbour amenity (privacy/daylight/outlook)" ∈ issues then
              ["No additional windows/openings facing neighbouring properties unless otherwise agreed in writing by the LPA."] else [])
      else []
    { decision := d.1, confidence := d.2
      reasons_for := reasonsFor, reasons_against := reasonsAgainst
      suggested_conditions := conds, issues := issues }

/-! ## src/plana/engine/src/plana_engine/policies/policy_evidence.py -/

/-- A citation record: the eight keys synthesized by require_policy_evidence
and by rerank_policy. -/
structure Citation where
  authority : Option String
  doc_key : Option String
  doc_title : Option String
  paragraph_ref : Option String
  page_start : Option Int
  page_end : Option Int
  source_path : Option String
  score : Option ℚ
deriving DecidableEq, Repr

/-- A retrieval result as read by require_policy_evidence. -/
structure RItem where
  authority : Option String
  doc_key : Option String
  doc_title : Option String
  paragraph_ref : Option String
  page_start : Option Int
  page_end : Option Int
  source_path : Option String
  score : Option ℚ
deriving DecidableEq, Repr

/-- The provider output retrieval_out; reason = "" models an absent or None
reason (both falsy for the or-default). -/
structure RetrievalOut where
  ok : Bool
  reason : String
  results : List RItem
deriving DecidableEq, Repr

/-- The standard structure require_policy_evidence returns. -/
structure GateOut where
  ok : Bool
  reason : Option String
  citations : List Citation
  evidence : List RItem
deriving DecidableEq, Repr

/-- The citation dict built per result in the ok branch. -/
def citationOfResult (r : RItem) : Citation :=
  { authority := r.authority, doc_key := r.doc_key, doc_title := r.doc_title
    paragraph_ref := r.paragraph_ref, page_start := r.page_start, page_end := r.page_end
    source_path := r.source_path, score := r.score }

/-- Models require_policy_evidence (min_results defaults to 3 at the call
sites). -/
def requirePolicyEvidence (retrievalOut : RetrievalOut) (minResults : ℤ) : GateOut :=
  if !retrievalOut.ok || (retrievalOut.results.length : ℤ) < minResults then
    { ok := false
      reason := some (if retrievalOut.reason = "" then "Insufficient policy evidence"
                      else retrievalOut.reason)
      citations := [], evidence := [] }
  else
    { ok := true, reason := none
      citations := retrievalOut.results.map citationOfResult
      evidence := retrievalOut.results }

/-! ## src/scripts/report_rerank.py -/

/-- The weights configuration after load_weights has filled the defaults
(doc_diversity_target 3, max_evidence_items 10, c3_keyword_boost 2.0,
c3_keywords [], irrelevance_penalty_per_hit 0.7, min_score_floor 0.1 and
empty maps).  The maps are association lists in JSON insertion order.  The
topic_penalty field is the key written by auto_tune_weights.py; it can sit
in the same JSON file but score_item never reads it. -/
structure RW where
  doc_diversity_target : ℤ
  max_evidence_items : ℤ
  c3_keyword_boost : ℚ
  c3_keywords : List String
  irrelevance_penalty_per_hit : ℚ
  min_score_floor : ℚ
  doc_boost : List (String × ℚ)
  topic_penalties : List (String × ℚ)
  topic_penalty : List (String × ℚ)
deriving DecidableEq, Repr

/-- load_weights applied to an empty or absent config. -/
def defaultWeights : RW :=
  { doc_diversity_target := 3, max_evidence_items := 10, c3_keyword_boost := 2
    c3_keywords := [], irrelevance_penalty_per_hit := 0.7, min_score_floor := 0.1
    doc_boost := [], topic_penalties := [], topic_penalty := [] }

/-- Dict lookup on an association list (keys are unique in a Python dict, so
the first match is the binding). -/
def alGet : List (String × ℚ) → String → Option ℚ
  | [], _ => none
  | p :: ps, k => if p.1 = k then some p.2 else alGet ps k

/-- hits: keywords that are non-empty and occur (lowercased) in the text. -/
def c3Hits (kws : List String) (t : String) : ℕ :=
  (kws.filter (fun kw => kw != "" && containsSub (lowerStr kw) t)).length

/-- One iteration of the topic-penalty loop: multiply in 1/(mult or 1.0) and
count the hit when the (non-empty) topic occurs in the text. -/
def topicStep (t : String) (acc : ℚ × ℕ) (p : String × ℚ) : ℚ × ℕ :=
  if p.1 != "" && containsSub (lowerStr p.1) t then
    (acc.1 * (1 / (if p.2 = 0 then 1 else p.2)), acc.2 + 1)
  else acc

/-- Models score_item. -/
def scoreItem (text : String) (baseScore : ℚ) (docKey : String) (w : RW) : ℚ :=
  let t := lowerStr text
  let s1 := baseScore * ((alGet w.doc_boost docKey).getD 1)
  let hits := c3Hits w.c3_keywords t
  let s2 := if hits ≠ 0 then s1 * (1 + (w.c3_keyword_boost - 1) * min 1 ((hits : ℚ) / 3)) else s1
  let pf := w.topic_penalties.foldl (topicStep t) (s2, 0)
  let s3 := if pf.2 ≠ 0 then pf.1 - (pf.2 : ℚ) * w.irrelevance_penalty_per_hit else pf.1
  if s3 < w.min_score_floor then w.min_score_floor else s3

/-- An evidence dict as handled by rerank_policy.  rerank_score models the
"_rerank_score" key (none when the key is absent). -/
structure Ev where
  authority : Option String
  doc_key : Option String
  doc_title : Option String
  paragraph_ref : Option String
  page_start : Option Int
  page_end : Option Int
  source_path : Option String
  score : Option ℚ
  snippet : Option String
  text : Option String
  rerank_score : Option ℚ
deriving DecidableEq, Repr

/-- score_item applied to an evidence dict exactly as rerank_policy does:
text = snippet or text or "", base = score or 0.0, doc_key or "". -/
def evalScore (w : RW) (e : Ev) : ℚ :=
  scoreItem (orStr e.snippet e.text) (e.score.getD 0) (e.doc_key.getD "") w

/-- e2 = dict(e); e2["_rerank_score"] = score_item(...) -/
def attach (w : RW) (e : Ev) : Ev := { e with rerank_score := some (evalScore w e) }

/-- The sort key float(x.get("_rerank_score", 0.0)). -/
def rkey (e : Ev) : ℚ := e.rerank_score.getD 0

/-- Stable insertion for the descending sort: x goes before the first element
whose key is at most rkey x, so earlier list elements stay first on ties. -/
def insertEv (x : Ev) : List Ev → List Ev
  | [] => [x]
  | y :: ys => if rkey y ≤ rkey x then x :: y :: ys else y :: insertEv x ys

/-- Models scored.sort(key=rerank score, reverse=True): a stable descending
sort. -/
def sortEv (l : List Ev) : List Ev := l.foldr insertEv []

/-- dk = e.get("doc_key") is truthy exactly when it is a non-empty string. -/
def truthyKey (e : Ev) : Option String :=
  match e.doc_key with
  | some s => if s = "" then none else some s
  | none => none

/-- Pass 1 of rerank_policy: walk the sorted list, picking the first item per
unseen truthy doc_key; after a pick, stop when the seen-set has reached
target_docs. -/
def pass1 (target : ℤ) : List Ev → List String → List Ev
  | [], _ => []
  | e :: es, seen =>
    match truthyKey e with
    | some dk =>
      if dk ∉ seen then
        if target ≤ (seen.length + 1 : ℤ) then [e]
        else e :: pass1 target es (dk :: seen)
      else pass1 target es seen
    | none => pass1 target es seen

/-- Pass 2 of rerank_policy: fill remaining slots in score order, skipping
items already picked, stopping once max_items are picked. -/
def pass2 (maxItems : ℤ) : List Ev → List Ev → List Ev
  | [], picked => picked
  | e :: es, picked =>
    if maxItems ≤ (picked.length : ℤ) then picked
    else if e ∈ picked then pass2 maxItems es picked
    else pass2 maxItems es (picked ++ [e])

/-- The evidence component of rerank_policy: attach scores, stable-sort
descending, enforce doc diversity, fill by score. -/
def rerankEvidence (w : RW) (evidence : List Ev) : List Ev :=
  let scored := sortEv (evidence.map (attach w))
  pass2 w.max_evidence_items scored (pass1 w.doc_diversity_target scored [])

/-- cit_map is keyed by (doc_key, paragraph_ref); Python dict insertion makes
the last citation with a key win, hence the reversed search. -/
def citLookup (citations : List Citation) (k : Option String × Option String) : Option Citation :=
  citations.reverse.find? (fun c => decide ((c.doc_key, c.paragraph_ref) = k))

/-- The citation synthesized from a picked evidence item (score is the
"_rerank_score" entry). -/
def synthCitation (e : Ev) : Citation :=
  { authority := e.authority, doc_key := e.doc_key, doc_title := e.doc_title
    paragraph_ref := e.paragraph_ref, page_start := e.page_start, page_end := e.page_end
    source_path := e.source_path, score := e.rerank_score }

/-- Models rerank_policy: returns (new_citations, picked evidence).  The
weights argument is the configuration after load_weights. -/
def rerankPolicy (citations : List Citation) (evidence : List Ev) (w : RW) :
    List Citation × List Ev :=
  let picked := rerankEvidence w evidence
  let newCits := picked.map (fun e =>
    match citLookup citations (e.doc_key, e.paragraph_ref) with
    | some c => c
    | none => synthCitation e)
  (newCits, picked)

/-- The set of distinct non-empty (truthy) doc_key values of an evidence
list. -/
def keyFinset (l : List Ev) : Finset String := (l.filterMap truthyKey).toFinset

/-- The value a occurs before the value b in l: [a, b] is a sublist of l. -/
def Prec {α : Type} (l : List α) (a b : α) : Prop := List.Sublist [a, b] l

/-- The formula of the claim for score_item, written from the claim text: hits
and penalty matches count every key occurring as a case-insensitive substring
(with no non-emptiness guard), the penalty product divides by the stored
multiplier itself, and the result is clamped from below by min_score_floor. -/
def claimHits (kws : List String) (t : String) : ℕ :=
  (kws.filter (fun kw => containsSub (lowerStr kw) t)).length

/-- Topic-penalty entries whose key occurs as a case-insensitive substring of
the (lowercased) text, per the claim text. -/
def claimPenaltyMatches (tp : List (String × ℚ)) (t : String) : List (String × ℚ) :=
  tp.filter (fun p => containsSub (lowerStr p.1) t)

/-- The score_item formula exactly as the claim states it. -/
def claimScore (text : String) (rawScore : ℚ) (docKey : String) (w : RW) : ℚ :=
  let t := lowerStr text
  let hits := claimHits w.c3_keywords t
  let tpMatches := claimPenaltyMatches w.topic_penalties t
  max w.min_score_floor
    (rawScore * ((alGet w.doc_boost docKey).getD 1)
      * (1 + (w.c3_keyword_boost - 1) * min 1 ((hits : ℚ) / 3))
      * (tpMatches.map (fun p => 1 / p.2)).prod
      - (tpMatches.length : ℚ) * w.irrelevance_penalty_per_hit)

/-! ## src/scripts/auto_tune_weights.py and src/scripts/update_weights_from_feedback.py -/

/-- The persisted weights JSON as touched by the two tuners.  doc_boost and
topic_penalty are the maps written by the per-run tuner, topic_penalties,
doc_diversity_target and irrelevance_penalty_per_hit are written by the batch
tuner. -/
structure TunerWeights where
  doc_boost : List (String × ℚ)
  topic_penalty : List (String × ℚ)
  topic_penalties : List (String × ℚ)
  doc_diversity_target : ℤ
  irrelevance_penalty_per_hit : ℚ
deriving DecidableEq, Repr

/-- clamp(x, lo, hi) = max(lo, min(hi, x)) -/
def clamp (x lo hi : ℚ) : ℚ := max lo (min hi x)

/-- Dict write m[k] = v on an association list: replace in place, else append
(Python dict update keeps the key position, insertion appends). -/
def alSet (m : List (String × ℚ)) (k : String) (v : ℚ) : List (String × ℚ) :=
  match m with
  | [] => [(k, v)]
  | p :: ps => if p.1 = k then (k, v) :: ps else p :: alSet ps k v

/-- bump of auto_tune_weights: doc_boost[doc] = clamp(get(doc, 1.0) + delta,
0.80, 1.50). -/
def bump (db : List (String × ℚ)) (doc : String) (delta : ℚ) : List (String × ℚ) :=
  alSet db doc (clamp ((alGet db doc).getD 1 + delta) 0.80 1.50)

/-- One watch-list update of the per-run tuner: topic_penalty[k] =
clamp(get(k, 0.90) - 0.03, 0.50, 1.00). -/
def penaltyDown (m : List (String × ℚ)) (k : String) : List (String × ℚ) :=
  alSet m k (clamp ((alGet m k).getD 0.90 - 0.03) 0.50 1.00)

/-- The weight mutation of one auto_tune_weights.py run, as a function of the
two quality-warning flags parsed from the score text. -/
def perRunTune (lowDiv irrelevant : Bool) (w : TunerWeights) : TunerWeights :=
  let w1 :=
    if lowDiv then
      { w with doc_boost := bump (bump (bump w.doc_boost "nppf_2024" 0.03) "dap_2020" 0.02) "csucp_2015" (-0.02) }
    else w
  if irrelevant then
    { w1 with topic_penalty :=
        ["leisure", "tourism", "nightclub", "employment land", "retail hierarchy"].foldl penaltyDown w1.topic_penalty }
  else w1

/-- One batch-tuner topic_penalties update: tp[k] = min(get(k, 2.0) + 0.2, 4.0). -/
def penaltiesUp (m : List (String × ℚ)) (k : String) : List (String × ℚ) :=
  alSet m k (min ((alGet m k).getD 2 + 0.2) 4)

/-- The weight mutation of one update_weights_from_feedback.py run as a
function of the recurring-warning flags; a run gated off by min_records (or
with no flags) is the identity, i.e. both flags false. -/
def batchTune (lowDiv irrelevant : Bool) (w : TunerWeights) : TunerWeights :=
  let w1 :=
    if lowDiv then
      (if w.doc_diversity_target < 3 then { w with doc_diversity_target := w.doc_diversity_target + 1 } else w)
    else w
  if irrelevant then
    let w2 := { w1 with irrelevance_penalty_per_hit := min (w1.irrelevance_penalty_per_hit + 0.1) 1.5 }
    { w2 with topic_penalties := ["leisure", "tourism", "nightlife"].foldl penaltiesUp w2.topic_penalties }
  else w1

/-- One tuner invocation over the shared weights store. -/
inductive TunerStep : TunerWeights → TunerWeights → Prop
  | perRun (lowDiv irrelevant : Bool) (w : TunerWeights) : TunerStep w (perRunTune lowDiv irrelevant w)
  | batch (lowDiv irrelevant : Bool) (w : TunerWeights) : TunerStep w (batchTune lowDiv irrelevant w)

/-- Reachability by any finite interleaving of tuner invocations. -/
inductive TunerReachable : TunerWeights → TunerWeights → Prop
  | refl (w : TunerWeights) : TunerReachable w w
  | step {w1 w2 w3 : TunerWeights} : TunerReachable w1 w2 → TunerStep w2 w3 → TunerReachable w1 w3

/-- The declared bounds of the claim: doc_boost entries in [0.80, 1.50], the
per-run topic_penalty map in [0.50, 1.00], the batch topic_penalties map at
most 4.00, irrelevance_penalty_per_hit at most 1.5 and doc_diversity_target
at most 3. -/
def WValid (w : TunerWeights) : Prop :=
  (∀ p ∈ w.doc_boost, (0.80 : ℚ) ≤ p.2 ∧ p.2 ≤ 1.50) ∧
  (∀ p ∈ w.topic_penalty, (0.50 : ℚ) ≤ p.2 ∧ p.2 ≤ 1.00) ∧
  (∀ p ∈ w.topic_penalties, p.2 ≤ (4 : ℚ)) ∧
  w.irrelevance_penalty_per_hit ≤ 1.5 ∧
  w.doc_diversity_target ≤ 3

/-- A concrete valid starting store (the shipped defaults read by the two
tuners on first contact). -/
def initialTunerWeights : TunerWeights :=
  { doc_boost := [], topic_penalty := [], topic_penalties := []
    doc_diversity_target := 3, irrelevance_penalty_per_hit := 0.7 }

/-! ## Helper lemmas -/

theorem weighBalance_decision_eq (p : String) (rs : List WBItem) (h : rs.isEmpty = false) :
    (weighBalance p rs).decision = (wbDecision (wbAvg rs) (wbTop rs)).1 := by
  simp [weighBalance, h]

theorem weighBalance_confidence_eq (p : String) (rs : List WBItem) (h : rs.isEmpty = false) :
    (weighBalance p rs).confidence = (wbDecision (wbAvg rs) (wbTop rs)).2 := by
  simp [weighBalance, h]

theorem wbDecision_insufficient_confidence (avg top : ℚ)
    (h : (wbDecision avg top).1 = "insufficient_evidence") : (wbDecision avg top).2 = 0.25 := by
  unfold wbDecision at h ⊢
  by_cases h1 : 4 ≤ avg ∧ (4.5 : ℚ) ≤ top
  · rw [if_pos h1] at h; exact absurd h (by decide)
  · rw [if_neg h1] at h ⊢
    by_cases h2 : avg < 2.5
    · rw [if_pos h2]
    · rw [if_neg h2] at h; exact absurd h (by decide)

/-! ## Claim theorems -/

/-- C1: whenever the evidence gate reported not-ok (policy_block.ok = false),
make_recommendation returns decision insufficient_evidence, whatever the
scores in the block, the precedent case_block and the require_precedent flag
are. -/
theorem c1_gate_not_ok_forces_insufficient (proposalText : String) (pb : JPolicyBlock)
    (cb : Option JCaseBlock) (rp : Bool) (h : pb.ok = false) :
    (makeRecommendation proposalText pb cb rp).decision = "insufficient_evidence" := by
  simp [makeRecommendation, policyStrength, h]

/-- C1 witness: a concrete not-ok block yields insufficient_evidence. -/
theorem c1_witness :
    ({ ok := false, evidence := [], results := [] } : JPolicyBlock).ok = false ∧
    (makeRecommendation "two storey rear extension"
        { ok := false, evidence := [⟨some 5⟩, ⟨some 5⟩, ⟨some 5⟩], results := [] }
        none true).decision = "insufficient_evidence" :=
  ⟨rfl, c1_gate_not_ok_forces_insufficient "two storey rear extension"
    { ok := false, evidence := [⟨some 5⟩, ⟨some 5⟩, ⟨some 5⟩], results := [] } none true rfl⟩

/-- C5: on a non-empty results list, the score-only engine decides
approve_with_conditions with confidence 0.70 when avg ≥ 4.0 and top ≥ 4.5,
insufficient_evidence with confidence 0.25 when avg < 2.5, and
needs_officer_review with confidence 0.45 in every other case. -/
theorem c5_score_only_thresholds (p : String) (rs : List WBItem) (h : rs ≠ []) :
    ((4 ≤ wbAvg rs ∧ (4.5 : ℚ) ≤ wbTop rs) →
      (weighBalance p rs).decision = "approve_with_conditions" ∧
      (weighBalance p rs).confidence = 0.70) ∧
    (wbAvg rs < 2.5 →
      (weighBalance p rs).decision = "insufficient_evidence" ∧
      (weighBalance p rs).confidence = 0.25) ∧
    (¬(4 ≤ wbAvg rs ∧ (4.5 : ℚ) ≤ wbTop rs) → ¬(wbAvg rs < 2.5) →
      (weighBalance p rs).decision = "needs_officer_review" ∧
      (weighBalance p rs).confidence = 0.45) := by
  have he : rs.isEmpty = false := by simpa [List.isEmpty_iff] using h
  rw [weighBalance_decision_eq p rs he, weighBalance_confidence_eq p rs he]
  unfold wbDecision
  refine ⟨fun hc => ?_, fun hc => ?_, fun hc1 hc2 => ?_⟩
  · rw [if_pos hc]; exact ⟨rfl, rfl⟩
  · rw [if_neg (by rintro ⟨h4, _⟩; linarith), if_pos hc]; exact ⟨rfl, rfl⟩
  · rw [if_neg hc1, if_neg hc2]; exact ⟨rfl, rfl⟩

/-- C5 witness: one result of score 5 gives avg 5 and top 5, hence
approve_with_conditions at confidence 0.70. -/
theorem c5_witness :
    ([⟨some 5, none⟩] : List WBItem) ≠ [] ∧
    (weighBalance "" [⟨some 5, none⟩]).decision = "approve_with_conditions" ∧
    (weighBalance "" [⟨some 5, none⟩]).confidence = 0.70 := by
  have h5 : wbAvg [(⟨some 5, none⟩ : WBItem)] = 5 := by
    norm_num [wbAvg, wbScores]
  have ht : wbTop [(⟨some 5, none⟩ : WBItem)] = 5 := by
    norm_num [wbTop, wbScores]
  refine ⟨by simp, ?_⟩
  have := (c5_score_only_thresholds "" [⟨some 5, none⟩] (by simp)).1
  exact this (by rw [h5, ht]; norm_num)

/-- C6 counterexample: make_recommendation reaches an insufficient_evidence
decision yet its returned recommendation carries no confidence value at all
(the source never writes a confidence key), refuting the claim that the
returned recommendation carries a confidence value on that path. -/
theorem c6_counterexample :
    (makeRecommendation "" { ok := false, evidence := [], results := [] } none false).decision
      = "insufficient_evidence" ∧
    (makeRecommendation "" { ok := false, evidence := [], results := [] } none false).confidence
      = none := ⟨rfl, rfl⟩

/-- C6 amended: whenever the decision is insufficient_evidence, any confidence
value carried by the output is at most 0.25: weigh_balance always carries one
(0.0 or 0.25 on that branch) and make_recommendation never carries one. -/
theorem c6_amended_confidence_cap :
    (∀ p rs, (weighBalance p rs).decision = "insufficient_evidence" →
      (weighBalance p rs).confidence ≤ 0.25) ∧
    (∀ p pb cb rp, (makeRecommendation p pb cb rp).confidence = none) := by
  constructor
  · intro p rs h
    rcases he : rs.isEmpty with hf | ht
    · rw [weighBalance_decision_eq p rs he] at h
      rw [weighBalance_confidence_eq p rs he, wbDecision_insufficient_confidence _ _ h]
    · simp [weighBalance, he]
      norm_num
  · intro p pb cb rp
    simp only [makeRecommendation]
    split
    · rfl
    · split
      · rfl
      · split <;> rfl

/-- C6 witness: the empty-results branch of weigh_balance is an
insufficient_evidence outcome with confidence 0 ≤ 0.25, and a concrete
make_recommendation output carries no confidence. -/
theorem c6_witness :
    (weighBalance "" []).decision = "insufficient_evidence" ∧
    (weighBalance "" []).confidence ≤ 0.25 ∧
    (makeRecommendation "x" { ok := true, evidence := [], results := [] } none false).confidence
      = none :=
  ⟨rfl, c6_amended_confidence_cap.1 "" [] rfl,
    c6_amended_confidence_cap.2 "x" { ok := true, evidence := [], results := [] } none false⟩

/-- C7 counterexample: the policy gate passes, require_precedent is false (so
the claim imposes no precedent check), the proposal contains the harm phrases
"overlooking" and "unacceptable", and the single precedent is a refused case
whose reasons mention "overlooking" - yet because the precedent strength check
fails (avg 1 < 2), the code does not refuse and instead returns
approve_with_conditions. -/
theorem c7_counterexample :
    harmFlags "overlooking unacceptable" = true ∧
    refusedAmenityCase ⟨"Refused", "overlooking", "", "", some 1⟩ = true ∧
    (makeRecommendation "overlooking unacceptable"
        { ok := true, evidence := [⟨some 4⟩, ⟨some 4⟩, ⟨some 4⟩], results := [] }
        (some { ok := true, reason := ""
                results := [⟨"Refused", "overlooking", "", "", some 1⟩] })
        false).decision = "approve_with_conditions" := by
  refine ⟨by decide, by decide, ?_⟩
  have hpol : (policyStrength
      { ok := true, evidence := [⟨some 4⟩, ⟨some 4⟩, ⟨some 4⟩], results := [] }).1 = true := by
    norm_num [policyStrength, orList, jscores, avgTopScores, sortDescQ, insertDescQ]
  have hcase : (caseStrength (some ⟨true, "", [⟨"Refused", "overlooking", "", "", some 1⟩]⟩)).1
      = false := by
    norm_num [caseStrength, avgTopScores, sortDescQ, insertDescQ]
  simp [makeRecommendation, hpol, hcase, tiltRefuse, tiltConditions, draftHouseholderConditions]

/-- C7 amended: when the policy gate passes, the precedent strength check also
passes (case_ok), the proposal mentions a harm phrase and one of the first
five precedent results is a refused case citing an amenity-harm term,
make_recommendation refuses with no conditions and exactly the fixed
amenity-harm boilerplate refusal reason. -/
theorem c7_amended_refuse_path (p : String) (pb : JPolicyBlock) (cb : JCaseBlock) (rp : Bool)
    (hpol : (policyStrength pb).1 = true)
    (hcase : (caseStrength (some cb)).1 = true)
    (hharm : harmFlags p = true)
    (href : ∃ c ∈ cb.results.take 5, refusedAmenityCase c = true) :
    (makeRecommendation p pb (some cb) rp).decision = "refuse" ∧
    (makeRecommendation p pb (some cb) rp).draft_conditions = [] ∧
    (makeRecommendation p pb (some cb) rp).draft_refusal_reasons = [refusalBoilerplate] := by
  have htilt : tiltRefuse true cb.results = true := by
    rcases href with ⟨c, hc, hrc⟩
    simp only [tiltRefuse, Bool.true_and]
    exact List.any_eq_true.mpr ⟨c, hc, hrc⟩
  simp [makeRecommendation, hpol, hcase, htilt, hharm]

/-- C7 amended witness: a strong policy block, a strong refused precedent
mentioning "overlooking", and a proposal with harm phrases refuse with the
boilerplate reason and no conditions. -/
theorem c7_witness :
    (makeRecommendation "overlooking unacceptable"
        { ok := true, evidence := [⟨some 4⟩, ⟨some 4⟩, ⟨some 4⟩], results := [] }
        (some { ok := true, reason := ""
                results := [⟨"Refused", "overlooking", "", "", some 3⟩] })
        true).decision = "refuse" ∧
    (makeRecommendation "overlooking unacceptable"
        { ok := true, evidence := [⟨some 4⟩, ⟨some 4⟩, ⟨some 4⟩], results := [] }
        (some { ok := true, reason := ""
                results := [⟨"Refused", "overlooking", "", "", some 3⟩] })
        true).draft_conditions = [] := by
  have h := c7_amended_refuse_path "overlooking unacceptable"
    { ok := true, evidence := [⟨some 4⟩, ⟨some 4⟩, ⟨some 4⟩], results := [] }
    { ok := true, reason := "", results := [⟨"Refused", "overlooking", "", "", some 3⟩] }
    true
    (by norm_num [policyStrength, orList, jscores, avgTopScores, sortDescQ, insertDescQ])
    (by norm_num [caseStrength, avgTopScores, sortDescQ, insertDescQ])
    (by decide)
    ⟨⟨"Refused", "overlooking", "", "", some 3⟩, by simp, by decide⟩
  exact ⟨h.1, h.2.1⟩

/-- C9 counterexample: on a not-ok retrieval whose provider reason is "foo",
the gate returns ok = false with reason "foo", which is none of the four
fixed-vocabulary reasons the claim allows (nor is the code's own fallback
"Insufficient policy evidence" one of them). -/
theorem c9_counterexample :
    (requirePolicyEvidence ⟨false, "foo", []⟩ 3).ok = false ∧
    (requirePolicyEvidence ⟨false, "foo", []⟩ 3).reason = some "foo" ∧
    "foo" ∉ ["no_policy_results", "policy_results_too_few", "policy_scores_too_low",
      "insufficient_policy_evidence"] :=
  ⟨rfl, rfl, by decide⟩

/-- C9 amended: ok = false exactly when the provider reported not-ok or fewer
than min_results items; on failure the reason is the provider reason if
non-empty, else the fixed fallback "Insufficient policy evidence", with empty
citations and evidence; on success the citations are built 1:1 from the
results and the evidence list is the results. -/
theorem c9_amended_gate_contract (r : RetrievalOut) (minResults : ℤ) :
    ((requirePolicyEvidence r minResults).ok = false ↔
      (r.ok = false ∨ (r.results.length : ℤ) < minResults)) ∧
    ((requirePolicyEvidence r minResults).ok = false →
      (requirePolicyEvidence r minResults).reason
          = some (if r.reason = "" then "Insufficient policy evidence" else r.reason) ∧
      (requirePolicyEvidence r minResults).citations = [] ∧
      (requirePolicyEvidence r minResults).evidence = []) ∧
    ((requirePolicyEvidence r minResults).ok = true →
      (requirePolicyEvidence r minResults).citations = r.results.map citationOfResult ∧
      (requirePolicyEvidence r minResults).evidence = r.results) := by
  unfold requirePolicyEvidence
  rcases hok : r.ok with hf | ht
  · simp [hok]
  · by_cases hlen : (r.results.length : ℤ) < minResults
    · simp [hok, hlen]
    · simp [hok, hlen]

/-- C9 amended witness: a one-result ok retrieval with min_results 1 passes
the gate with 1:1 citations, and a failing retrieval yields the fallback
reason with empty lists. -/
theorem c9_witness :
    (requirePolicyEvidence ⟨true, "", [⟨none, none, none, none, none, none, none, some 1⟩]⟩ 1).ok
      = true ∧
    (requirePolicyEvidence ⟨true, "", [⟨none, none, none, none, none, none, none, some 1⟩]⟩ 1).citations
      = [citationOfResult ⟨none, none, none, none, none, none, none, some 1⟩] ∧
    (requirePolicyEvidence ⟨true, "", [⟨none, none, none, none, none, none, none, some 1⟩]⟩ 1).evidence
      = [⟨none, none, none, none, none, none, none, some 1⟩] := by
  have h := (c9_amended_gate_contract
    ⟨true, "", [⟨none, none, none, none, none, none, none, some 1⟩]⟩ 1).2.2 (by rfl)
  exact ⟨rfl, h.1, h.2⟩

/-- C10: score_item reads topic penalties only from the "topic_penalties" key,
so two weights configurations that differ only in the "topic_penalty" map (the
key the per-run tuner writes) give the same score to every item. -/
theorem c10_per_run_penalties_unread (text : String) (base : ℚ) (docKey : String)
    (w : RW) (tp : List (String × ℚ)) :
    scoreItem text base docKey { w with topic_penalty := tp }
      = scoreItem text base docKey w := rfl

/-! ## Lemmas for the score formula (C4) -/

theorem topicFold_eq (t : String) :
    ∀ (l : List (String × ℚ)) (s : ℚ) (n : ℕ),
      (∀ p ∈ l, p.1 ≠ "" ∧ p.2 ≠ 0) →
      l.foldl (topicStep t) (s, n)
        = (s * ((claimPenaltyMatches l t).map (fun p => 1 / p.2)).prod,
           n + (claimPenaltyMatches l t).length) := by
  intro l
  induction l with
  | nil => intro s n _; simp [claimPenaltyMatches]
  | cons p ps ih =>
    intro s n hall
    have hp := hall p (by simp)
    have hps : ∀ q ∈ ps, q.1 ≠ "" ∧ q.2 ≠ 0 := fun q hq => hall q (by simp [hq])
    by_cases hc : containsSub (lowerStr p.1) t = true
    · have hcond : (p.1 != "" && containsSub (lowerStr p.1) t) = true := by
        simp [hc, hp.1]
      have hstep : topicStep t (s, n) p = (s * (1 / p.2), n + 1) := by
        simp only [topicStep, hcond, if_true]
        rw [if_neg hp.2]
      have hm : claimPenaltyMatches (p :: ps) t = p :: claimPenaltyMatches ps t := by
        simp [claimPenaltyMatches, List.filter_cons, hc]
      rw [List.foldl_cons, hstep, ih _ _ hps, hm]
      simp only [List.map_cons, List.prod_cons, List.length_cons]
      rw [Prod.mk.injEq]
      exact ⟨by ring, by omega⟩
    · have hcond : (p.1 != "" && containsSub (lowerStr p.1) t) = false := by
        simp [hc]
      have hstep : topicStep t (s, n) p = (s, n) := by
        simp only [topicStep, hcond]
        rfl
      have hm : claimPenaltyMatches (p :: ps) t = claimPenaltyMatches ps t := by
        simp [claimPenaltyMatches, List.filter_cons, hc]
      rw [List.foldl_cons, hstep, ih _ _ hps, hm]

theorem boost_if_eq (s1 b : ℚ) (H : ℕ) :
    (if H ≠ 0 then s1 * (1 + (b - 1) * min 1 ((H : ℚ) / 3)) else s1)
      = s1 * (1 + (b - 1) * min 1 ((H : ℚ) / 3)) := by
  by_cases h : H = 0
  · subst h
    rw [if_neg (by simp)]
    norm_num
  · rw [if_pos h]

theorem penalty_if_eq (x pen : ℚ) (n : ℕ) :
    (if n ≠ 0 then x - (n : ℚ) * pen else x) = x - (n : ℚ) * pen := by
  by_cases h : n = 0
  · subst h; simp
  · rw [if_pos h]

theorem floor_if_eq_max (a b : ℚ) : (if a < b then b else a) = max b a := by
  by_cases h : a < b
  · rw [if_pos h, max_eq_left h.le]
  · rw [if_neg h, max_eq_right (not_lt.mp h)]

/-- C4 counterexample: with the single keyword "" (the empty string), the code
skips it (the source guards with: if kw and ...), while the claim formula
counts it as a substring hit of every text, so the two disagree on the item
"x" with raw score 1: the code returns 1, the formula 4/3. -/
theorem c4_counterexample :
    scoreItem "x" 1 "" { defaultWeights with c3_keywords := [""] }
      ≠ claimScore "x" 1 "" { defaultWeights with c3_keywords := [""] } := by
  have hcode : scoreItem "x" 1 "" { defaultWeights with c3_keywords := [""] } = 1 := by
    have hh : c3Hits [""] (lowerStr "x") = 0 := by decide
    simp only [scoreItem, defaultWeights, alGet, hh]
    norm_num
  have hclaim : claimScore "x" 1 "" { defaultWeights with c3_keywords := [""] } = 4 / 3 := by
    have hh : claimHits [""] (lowerStr "x") = 1 := by decide
    simp only [claimScore, defaultWeights, alGet, hh, claimPenaltyMatches]
    norm_num
  rw [hcode, hclaim]
  norm_num

/-- C4 amended: the claim formula is exact once restricted to configurations
with no empty-string c3 keyword and no empty-string or zero-multiplier
topic-penalty entry (the source skips empty keys via Python truthiness and
replaces a zero multiplier by 1.0). -/
theorem c4_amended_score_formula (text : String) (base : ℚ) (docKey : String) (w : RW)
    (hkw : ∀ kw ∈ w.c3_keywords, kw ≠ "")
    (htp : ∀ p ∈ w.topic_penalties, p.1 ≠ "" ∧ p.2 ≠ 0) :
    scoreItem text base docKey w = claimScore text base docKey w := by
  have hhits : c3Hits w.c3_keywords (lowerStr text) = claimHits w.c3_keywords (lowerStr text) := by
    unfold c3Hits claimHits
    congr 1
    apply List.filter_congr
    intro kw hk
    simp [hkw kw hk]
  simp only [scoreItem, claimScore]
  rw [topicFold_eq (lowerStr text) w.topic_penalties _ 0 htp, hhits, boost_if_eq]
  simp only [Nat.zero_add]
  rw [penalty_if_eq, floor_if_eq_max]

/-- C4 amended witness: a configuration with a non-empty keyword and a
non-empty, non-zero topic penalty satisfies the hypotheses, so the code equals
the formula there. -/
theorem c4_witness :
    (∀ kw ∈ (⟨3, 10, 2, ["housing"], 0.7, 0.1, [], [("leisure", 2)], []⟩ : RW).c3_keywords,
      kw ≠ "") ∧
    (∀ p ∈ (⟨3, 10, 2, ["housing"], 0.7, 0.1, [], [("leisure", 2)], []⟩ : RW).topic_penalties,
      p.1 ≠ "" ∧ p.2 ≠ 0) ∧
    scoreItem "housing policy" 1 "dap_2020"
        ⟨3, 10, 2, ["housing"], 0.7, 0.1, [], [("leisure", 2)], []⟩
      = claimScore "housing policy" 1 "dap_2020"
        ⟨3, 10, 2, ["housing"], 0.7, 0.1, [], [("leisure", 2)], []⟩ := by
  have h1 : ∀ kw ∈ (⟨3, 10, 2, ["housing"], 0.7, 0.1, [], [("leisure", 2)], []⟩ : RW).c3_keywords,
      kw ≠ "" := by
    intro kw hk
    simp at hk
    subst hk
    decide
  have h2 : ∀ p ∈ (⟨3, 10, 2, ["housing"], 0.7, 0.1, [], [("leisure", 2)], []⟩ : RW).topic_penalties,
      p.1 ≠ "" ∧ p.2 ≠ 0 := by
    intro p hp
    simp at hp
    subst hp
    exact ⟨by decide, by norm_num⟩
  exact ⟨h1, h2, c4_amended_score_formula _ _ _ _ h1 h2⟩

/-! ## Lemmas for the tuner invariant (C2) -/

theorem clamp_lower (x lo hi : ℚ) : lo ≤ clamp x lo hi := le_max_left _ _

theorem clamp_le_upper (x lo hi : ℚ) (h : lo ≤ hi) : clamp x lo hi ≤ hi :=
  max_le h (min_le_left _ _)

theorem clamp_of_ge_hi (x lo hi : ℚ) (h : hi ≤ x) (hlh : lo ≤ hi) : clamp x lo hi = hi := by
  unfold clamp
  rw [min_eq_left h, max_eq_right hlh]

theorem clamp_of_le_lo (x lo hi : ℚ) (h : x ≤ lo) (hlh : lo ≤ hi) : clamp x lo hi = lo := by
  unfold clamp
  rw [min_eq_right (h.trans hlh), max_eq_left h]

theorem alSet_mem : ∀ (m : List (String × ℚ)) (k : String) (v : ℚ) (q : String × ℚ),
    q ∈ alSet m k v → q = (k, v) ∨ q ∈ m := by
  intro m
  induction m with
  | nil =>
    intro k v q hq
    simp [alSet] at hq
    left
    exact hq
  | cons p ps ih =>
    intro k v q hq
    unfold alSet at hq
    by_cases h : p.1 = k
    · rw [if_pos h] at hq
      rcases List.mem_cons.mp hq with h1 | h2
      · exact Or.inl h1
      · exact Or.inr (List.mem_cons_of_mem _ h2)
    · rw [if_neg h] at hq
      rcases List.mem_cons.mp hq with h1 | h2
      · exact Or.inr (by simp [h1])
      · rcases ih k v q h2 with h3 | h4
        · exact Or.inl h3
        · exact Or.inr (by simp [h4])

theorem alGet_alSet_self : ∀ (m : List (String × ℚ)) (k : String) (v : ℚ),
    alGet (alSet m k v) k = some v := by
  intro m
  induction m with
  | nil => intro k v; simp [alSet, alGet]
  | cons p ps ih =>
    intro k v
    unfold alSet
    by_cases h : p.1 = k
    · rw [if_pos h]
      simp [alGet]
    · rw [if_neg h]
      simp only [alGet, if_neg h]
      exact ih k v

theorem alGet_alSet_ne : ∀ (m : List (String × ℚ)) (k : String) (v : ℚ) (k' : String),
    k ≠ k' → alGet (alSet m k v) k' = alGet m k' := by
  intro m
  induction m with
  | nil => intro k v k' hne; simp [alSet, alGet, hne]
  | cons p ps ih =>
    intro k v k' hne
    unfold alSet
    by_cases h : p.1 = k
    · rw [if_pos h]
      have hp1 : p.1 ≠ k' := by rw [h]; exact hne
      simp only [alGet]
      rw [if_neg hne, if_neg hp1]
    · rw [if_neg h]
      simp only [alGet]
      by_cases h2 : p.1 = k'
      · rw [if_pos h2, if_pos h2]
      · rw [if_neg h2, if_neg h2]
        exact ih k v k' hne

theorem bump_bounds (db : List (String × ℚ)) (doc : String) (delta : ℚ)
    (h : ∀ p ∈ db, (0.80 : ℚ) ≤ p.2 ∧ p.2 ≤ 1.50) :
    ∀ p ∈ bump db doc delta, (0.80 : ℚ) ≤ p.2 ∧ p.2 ≤ 1.50 := by
  intro p hp
  rcases alSet_mem _ _ _ _ hp with h1 | h2
  · rw [h1]
    exact ⟨clamp_lower _ _ _, clamp_le_upper _ _ _ (by norm_num)⟩
  · exact h p h2

theorem penaltyDown_bounds (m : List (String × ℚ)) (k : String)
    (h : ∀ p ∈ m, (0.50 : ℚ) ≤ p.2 ∧ p.2 ≤ 1.00) :
    ∀ p ∈ penaltyDown m k, (0.50 : ℚ) ≤ p.2 ∧ p.2 ≤ 1.00 := by
  intro p hp
  rcases alSet_mem _ _ _ _ hp with h1 | h2
  · rw [h1]
    exact ⟨clamp_lower _ _ _, clamp_le_upper _ _ _ (by norm_num)⟩
  · exact h p h2

theorem penaltiesUp_bounds (m : List (String × ℚ)) (k : String)
    (h : ∀ p ∈ m, p.2 ≤ (4 : ℚ)) :
    ∀ p ∈ penaltiesUp m k, p.2 ≤ (4 : ℚ) := by
  intro p hp
  rcases alSet_mem _ _ _ _ hp with h1 | h2
  · rw [h1]
    exact min_le_right _ _
  · exact h p h2

theorem foldl_preserve {α : Type} (P : α → Prop) (f : α → String → α)
    (hf : ∀ a k, P a → P (f a k)) : ∀ (ks : List String) (a : α), P a → P (ks.foldl f a) := by
  intro ks
  induction ks with
  | nil => intro a ha; exact ha
  | cons k ks ih => intro a ha; exact ih _ (hf a k ha)

theorem perRunTune_valid (ld ir : Bool) (w : TunerWeights) (h : WValid w) :
    WValid (perRunTune ld ir w) := by
  obtain ⟨h1, h2, h3, h4, h5⟩ := h
  have hb : ∀ m, (∀ p ∈ m, (0.80 : ℚ) ≤ p.2 ∧ p.2 ≤ 1.50) →
      ∀ p ∈ bump (bump (bump m "nppf_2024" 0.03) "dap_2020" 0.02) "csucp_2015" (-0.02),
        (0.80 : ℚ) ≤ p.2 ∧ p.2 ≤ 1.50 :=
    fun m hm => bump_bounds _ _ _ (bump_bounds _ _ _ (bump_bounds _ _ _ hm))
  have hpd : ∀ m, (∀ p ∈ m, (0.50 : ℚ) ≤ p.2 ∧ p.2 ≤ 1.00) →
      ∀ p ∈ ["leisure", "tourism", "nightclub", "employment land", "retail hierarchy"].foldl
          penaltyDown m, (0.50 : ℚ) ≤ p.2 ∧ p.2 ≤ 1.00 :=
    fun m hm => foldl_preserve _ penaltyDown (fun a k ha => penaltyDown_bounds a k ha) _ m hm
  simp only [perRunTune]
  cases ld <;> cases ir <;>
    simp only [if_true, if_false, Bool.false_eq_true, reduceIte] <;>
    exact ⟨by first | exact h1 | exact hb _ h1,
           by first | exact h2 | exact hpd _ h2, h3, h4, h5⟩

theorem batchTune_valid (ld ir : Bool) (w : TunerWeights) (h : WValid w) :
    WValid (batchTune ld ir w) := by
  obtain ⟨h1, h2, h3, h4, h5⟩ := h
  have hpu : ∀ m, (∀ p ∈ m, p.2 ≤ (4 : ℚ)) →
      ∀ p ∈ ["leisure", "tourism", "nightlife"].foldl penaltiesUp m, p.2 ≤ (4 : ℚ) :=
    fun m hm => foldl_preserve _ penaltiesUp (fun a k ha => penaltiesUp_bounds a k ha) _ m hm
  have hdd : ∀ w1 : TunerWeights, w1.doc_diversity_target ≤ 3 →
      (if w1.doc_diversity_target < 3 then
        { w1 with doc_diversity_target := w1.doc_diversity_target + 1 } else w1).doc_diversity_target ≤ 3 := by
    intro w1 hw1
    split
    · next hlt => simpa using hlt
    · exact hw1
  simp only [batchTune]
  cases ld <;> cases ir <;>
    simp only [if_true, if_false, Bool.false_eq_true, reduceIte]
  · exact ⟨h1, h2, h3, h4, h5⟩
  · exact ⟨h1, h2, hpu _ h3, min_le_right _ _, h5⟩
  · split
    · next hlt => exact ⟨h1, h2, h3, h4, by simpa using hlt⟩
    · exact ⟨h1, h2, h3, h4, h5⟩
  · split
    · next hlt => exact ⟨h1, h2, hpu _ h3, min_le_right _ _, by simpa using hlt⟩
    · exact ⟨h1, h2, hpu _ h3, min_le_right _ _, h5⟩

theorem tunerStep_valid {w w' : TunerWeights} (hs : TunerStep w w') (h : WValid w) :
    WValid w' := by
  cases hs with
  | perRun ld ir w => exact perRunTune_valid ld ir w h
  | batch ld ir w => exact batchTune_valid ld ir w h

theorem tunerReachable_valid {w0 w : TunerWeights} (h0 : WValid w0)
    (h : TunerReachable w0 w) : WValid w := by
  induction h with
  | refl => exact h0
  | step hr hs ih => exact tunerStep_valid hs ih

theorem initial_valid : WValid initialTunerWeights := by
  refine ⟨?_, ?_, ?_, ?_, ?_⟩ <;> norm_num [initialTunerWeights]

theorem alGet_penaltyDown_ne (m : List (String × ℚ)) (k k' : String) (h : k ≠ k') :
    alGet (penaltyDown m k) k' = alGet m k' := alGet_alSet_ne m k _ k' h

theorem alGet_penaltyDown_self (m : List (String × ℚ)) (k : String) :
    alGet (penaltyDown m k) k = some (clamp ((alGet m k).getD 0.90 - 0.03) 0.50 1.00) :=
  alGet_alSet_self m k _

theorem alGet_penaltiesUp_ne (m : List (String × ℚ)) (k k' : String) (h : k ≠ k') :
    alGet (penaltiesUp m k) k' = alGet m k' := alGet_alSet_ne m k _ k' h

theorem alGet_penaltiesUp_self (m : List (String × ℚ)) (k : String) :
    alGet (penaltiesUp m k) k = some (min ((alGet m k).getD 2 + 0.2) 4) :=
  alGet_alSet_self m k _

/-- C2: every weights store reachable from a valid initial store by any finite
interleaving of per-run and batch tuner runs (with any quality-warning inputs)
keeps all doc_boost entries in [0.80, 1.50], per-run topic_penalty entries in
[0.50, 1.00], batch topic_penalties entries at most 4.00,
irrelevance_penalty_per_hit at most 1.5 and doc_diversity_target at most 3;
and at each ceiling or floor a repeated trigger leaves the value unchanged. -/
theorem c2_tuner_bounds_and_fixed :
    (∀ w0 w, WValid w0 → TunerReachable w0 w → WValid w) ∧
    (∀ w ir, alGet w.doc_boost "nppf_2024" = some 1.50 →
      alGet (perRunTune true ir w).doc_boost "nppf_2024" = some 1.50) ∧
    (∀ w ir, alGet w.doc_boost "csucp_2015" = some 0.80 →
      alGet (perRunTune true ir w).doc_boost "csucp_2015" = some 0.80) ∧
    (∀ w ld k, k ∈ ["leisure", "tourism", "nightclub", "employment land", "retail hierarchy"] →
      alGet w.topic_penalty k = some 0.50 →
      alGet (perRunTune ld true w).topic_penalty k = some 0.50) ∧
    (∀ w ld k, k ∈ ["leisure", "tourism", "nightlife"] →
      alGet w.topic_penalties k = some 4 →
      alGet (batchTune ld true w).topic_penalties k = some 4) ∧
    (∀ w ld, w.irrelevance_penalty_per_hit = 1.5 →
      (batchTune ld true w).irrelevance_penalty_per_hit = 1.5) ∧
    (∀ w ir, w.doc_diversity_target = 3 → (batchTune true ir w).doc_diversity_target = 3) := by
  refine ⟨fun w0 w h0 hr => tunerReachable_valid h0 hr, ?_, ?_, ?_, ?_, ?_, ?_⟩
  · intro w ir h
    have key : alGet (bump (bump (bump w.doc_boost "nppf_2024" 0.03) "dap_2020" 0.02)
        "csucp_2015" (-0.02)) "nppf_2024" = some 1.50 := by
      unfold bump
      rw [alGet_alSet_ne _ _ _ _ (by decide), alGet_alSet_ne _ _ _ _ (by decide),
        alGet_alSet_self, h]
      simp only [Option.getD_some]
      rw [clamp_of_ge_hi _ _ _ (by norm_num) (by norm_num)]
    cases ir <;> simpa [perRunTune] using key
  · intro w ir h
    have key : alGet (bump (bump (bump w.doc_boost "nppf_2024" 0.03) "dap_2020" 0.02)
        "csucp_2015" (-0.02)) "csucp_2015" = some 0.80 := by
      unfold bump
      rw [alGet_alSet_self, alGet_alSet_ne _ _ _ _ (by decide),
        alGet_alSet_ne _ _ _ _ (by decide), h]
      simp only [Option.getD_some]
      rw [clamp_of_le_lo _ _ _ (by norm_num) (by norm_num)]
    cases ir <;> simpa [perRunTune] using key
  · intro w ld k hk h
    have key : alGet (["leisure", "tourism", "nightclub", "employment land",
        "retail hierarchy"].foldl penaltyDown w.topic_penalty) k = some 0.50 := by
      simp only [List.foldl_cons, List.foldl_nil]
      fin_cases hk <;>
        (repeat rw [alGet_penaltyDown_ne _ _ _ (by decide)]) <;>
        rw [alGet_penaltyDown_self] <;>
        (repeat rw [alGet_penaltyDown_ne _ _ _ (by decide)]) <;>
        rw [h] <;>
        simp only [Option.getD_some] <;>
        rw [clamp_of_le_lo _ _ _ (by norm_num) (by norm_num)]
    cases ld <;> simpa [perRunTune] using key
  · intro w ld k hk h
    have key : alGet (["leisure", "tourism", "nightlife"].foldl penaltiesUp
        w.topic_penalties) k = some 4 := by
      simp only [List.foldl_cons, List.foldl_nil]
      fin_cases hk <;>
        (repeat rw [alGet_penaltiesUp_ne _ _ _ (by decide)]) <;>
        rw [alGet_penaltiesUp_self] <;>
        (repeat rw [alGet_penaltiesUp_ne _ _ _ (by decide)]) <;>
        rw [h] <;>
        simp only [Option.getD_some] <;>
        rw [min_eq_right (by norm_num)]
    cases ld <;> simp only [batchTune, if_true, reduceIte] <;> first
      | simpa using key
      | (split <;> simpa using key)
  · intro w ld h
    have key : min (w.irrelevance_penalty_per_hit + 0.1) 1.5 = 1.5 := by
      rw [h, min_eq_right (by norm_num)]
    cases ld <;> simp only [batchTune, if_true, reduceIte] <;> first
      | simpa using key
      | (split <;> simpa using key)
  · intro w ir h
    have hlt : ¬(w.doc_diversity_target < 3) := by omega
    cases ir <;> simp [batchTune, hlt, h]

/-- C2 witness: the shipped defaults are a valid store, and the store after a
per-run tuner invocation with both warnings firing is still valid, by
reachability in one step. -/
theorem c2_witness :
    WValid initialTunerWeights ∧ WValid (perRunTune true true initialTunerWeights) :=
  ⟨initial_valid,
   c2_tuner_bounds_and_fixed.1 initialTunerWeights (perRunTune true true initialTunerWeights)
     initial_valid
     (TunerReachable.step (TunerReachable.refl _) (TunerStep.perRun true true _))⟩

/-! ## Reranker pass lemmas (C3, C8) -/

theorem pass1_cons_none (t : ℤ) (e : Ev) (es : List Ev) (seen : List String)
    (he : truthyKey e = none) : pass1 t (e :: es) seen = pass1 t es seen := by
  simp [pass1, he]

theorem pass1_cons_seen (t : ℤ) (e : Ev) (es : List Ev) (seen : List String) (dk : String)
    (he : truthyKey e = some dk) (hm : dk ∈ seen) :
    pass1 t (e :: es) seen = pass1 t es seen := by
  simp [pass1, he, hm]

theorem pass1_cons_pick_break (t : ℤ) (e : Ev) (es : List Ev) (seen : List String) (dk : String)
    (he : truthyKey e = some dk) (hm : dk ∉ seen) (hb : t ≤ (seen.length + 1 : ℤ)) :
    pass1 t (e :: es) seen = [e] := by
  simp [pass1, he, hm, hb]

theorem pass1_cons_pick (t : ℤ) (e : Ev) (es : List Ev) (seen : List String) (dk : String)
    (he : truthyKey e = some dk) (hm : dk ∉ seen) (hb : ¬t ≤ (seen.length + 1 : ℤ)) :
    pass1 t (e :: es) seen = e :: pass1 t es (dk :: seen) := by
  simp [pass1, he, hm, hb]

theorem pass2_cons_full (m : ℤ) (e : Ev) (es picked : List Ev)
    (hb : m ≤ (picked.length : ℤ)) : pass2 m (e :: es) picked = picked := by
  simp [pass2, hb]

theorem pass2_cons_mem (m : ℤ) (e : Ev) (es picked : List Ev)
    (hb : ¬m ≤ (picked.length : ℤ)) (hm : e ∈ picked) :
    pass2 m (e :: es) picked = pass2 m es picked := by
  simp [pass2, hb, hm]

theorem pass2_cons_new (m : ℤ) (e : Ev) (es picked : List Ev)
    (hb : ¬m ≤ (picked.length : ℤ)) (hm : e ∉ picked) :
    pass2 m (e :: es) picked = pass2 m es (picked ++ [e]) := by
  simp [pass2, hb, hm]

theorem pass1_length_le (t : ℤ) : ∀ (l : List Ev) (seen : List String),
    (seen.length : ℤ) < t → ((pass1 t l seen).length : ℤ) ≤ t - seen.length := by
  intro l
  induction l with
  | nil => intro seen h; simp [pass1]; omega
  | cons e es ih =>
    intro seen h
    cases he : truthyKey e with
    | none => rw [pass1_cons_none t e es seen he]; exact ih seen h
    | some dk =>
      by_cases hm : dk ∈ seen
      · rw [pass1_cons_seen t e es seen dk he hm]; exact ih seen h
      · by_cases hb : t ≤ (seen.length + 1 : ℤ)
        · rw [pass1_cons_pick_break t e es seen dk he hm hb]
          simp only [List.length_singleton]
          omega
        · rw [pass1_cons_pick t e es seen dk he hm hb]
          have hrec := ih (dk :: seen) (by simp only [List.length_cons]; push_cast; omega)
          simp only [List.length_cons] at hrec ⊢
          push_cast at hrec ⊢
          omega

theorem pass2_length_le (m : ℤ) : ∀ (l picked : List Ev), (picked.length : ℤ) ≤ m →
    ((pass2 m l picked).length : ℤ) ≤ m := by
  intro l
  induction l with
  | nil => intro picked h; simpa [pass2] using h
  | cons e es ih =>
    intro picked h
    by_cases hb : m ≤ (picked.length : ℤ)
    · rw [pass2_cons_full m e es picked hb]; exact h
    · by_cases hm : e ∈ picked
      · rw [pass2_cons_mem m e es picked hb hm]; exact ih picked h
      · rw [pass2_cons_new m e es picked hb hm]
        apply ih
        simp only [List.length_append, List.length_singleton]
        push_cast
        omega

theorem pass2_len_or (m : ℤ) : ∀ (l picked : List Ev),
    ((pass2 m l picked).length : ℤ) ≤ m ∨ pass2 m l picked = picked := by
  intro l
  induction l with
  | nil => intro picked; right; rfl
  | cons e es ih =>
    intro picked
    by_cases hb : m ≤ (picked.length : ℤ)
    · right; exact pass2_cons_full m e es picked hb
    · by_cases hm : e ∈ picked
      · rw [pass2_cons_mem m e es picked hb hm]; exact ih picked
      · rw [pass2_cons_new m e es picked hb hm]
        left
        apply pass2_length_le
        simp only [List.length_append, List.length_singleton]
        push_cast
        omega

theorem pass1_keys (t : ℤ) : ∀ (l : List Ev) (seen : List String),
    (∀ e ∈ pass1 t l seen, ∃ dk, truthyKey e = some dk ∧ dk ∉ seen) ∧
    (pass1 t l seen).Pairwise (fun a b => truthyKey a ≠ truthyKey b) := by
  intro l
  induction l with
  | nil => intro seen; simp [pass1]
  | cons e es ih =>
    intro seen
    cases he : truthyKey e with
    | none => rw [pass1_cons_none t e es seen he]; exact ih seen
    | some dk =>
      by_cases hm : dk ∈ seen
      · rw [pass1_cons_seen t e es seen dk he hm]; exact ih seen
      · by_cases hb : t ≤ (seen.length + 1 : ℤ)
        · rw [pass1_cons_pick_break t e es seen dk he hm hb]
          exact ⟨by intro x hx; rw [List.mem_singleton] at hx; subst hx; exact ⟨dk, he, hm⟩,
            List.pairwise_singleton _ _⟩
        · rw [pass1_cons_pick t e es seen dk he hm hb]
          obtain ⟨ihm, ihp⟩ := ih (dk :: seen)
          constructor
          · intro x hx
            rcases List.mem_cons.mp hx with h1 | h2
            · subst h1; exact ⟨dk, he, hm⟩
            · obtain ⟨dk', h3, h4⟩ := ihm x h2
              exact ⟨dk', h3, fun hc => h4 (List.mem_cons_of_mem _ hc)⟩
          · refine List.pairwise_cons.mpr ⟨?_, ihp⟩
            intro x hx
            obtain ⟨dk', h3, h4⟩ := ihm x hx
            rw [he, h3]
            intro hc
            apply h4
            rw [← Option.some_inj.mp hc]
            exact List.mem_cons_self dk seen

theorem pass1_reaches (t : ℤ) : ∀ (l : List Ev) (seen : List String),
    (seen.length : ℤ) < t →
    t ≤ (seen.length : ℤ) + ((keyFinset l) \ seen.toFinset).card →
    ((pass1 t l seen).length : ℤ) = t - seen.length := by
  intro l
  induction l with
  | nil =>
    intro seen hlt hcard
    exfalso
    simp [keyFinset] at hcard
    omega
  | cons e es ih =>
    intro seen hlt hcard
    cases he : truthyKey e with
    | none =>
      rw [pass1_cons_none t e es seen he]
      apply ih seen hlt
      have hkf : keyFinset (e :: es) = keyFinset es := by
        simp [keyFinset, List.filterMap_cons, he]
      rwa [hkf] at hcard
    | some dk =>
      have hkf : keyFinset (e :: es) = insert dk (keyFinset es) := by
        simp [keyFinset, List.filterMap_cons, he]
      by_cases hm : dk ∈ seen
      · rw [pass1_cons_seen t e es seen dk he hm]
        apply ih seen hlt
        have hins : insert dk (keyFinset es) \ seen.toFinset = keyFinset es \ seen.toFinset :=
          Finset.insert_sdiff_of_mem _ (List.mem_toFinset.mpr hm)
        rwa [hkf, hins] at hcard
      · by_cases hb : t ≤ (seen.length + 1 : ℤ)
        · rw [pass1_cons_pick_break t e es seen dk he hm hb]
          simp only [List.length_singleton]
          omega
        · rw [pass1_cons_pick t e es seen dk he hm hb]
          rw [hkf] at hcard
          have hins : insert dk (keyFinset es) \ seen.toFinset
              = insert dk (keyFinset es \ seen.toFinset) :=
            Finset.insert_sdiff_of_not_mem _ (fun hc => hm (List.mem_toFinset.mp hc))
          rw [hins] at hcard
          have hsd : keyFinset es \ (dk :: seen).toFinset
              = (keyFinset es \ seen.toFinset).erase dk := by
            ext x
            simp only [Finset.mem_sdiff, Finset.mem_erase, List.toFinset_cons,
              Finset.mem_insert, List.mem_toFinset]
            tauto
          have hcard2 : t ≤ ((dk :: seen).length : ℤ)
              + ((keyFinset es) \ (dk :: seen).toFinset).card := by
            rw [hsd]
            set X := keyFinset es \ seen.toFinset with hX
            by_cases hdX : dk ∈ X
            · have h1 : (insert dk X).card = X.card := Finset.card_insert_of_mem hdX
              have h2 : (X.erase dk).card = X.card - 1 := Finset.card_erase_of_mem hdX
              have h3 : 1 ≤ X.card := Finset.card_pos.mpr ⟨dk, hdX⟩
              rw [h1] at hcard
              simp only [List.length_cons, h2]
              push_cast
              omega
            · have h1 : (insert dk X).card = X.card + 1 := Finset.card_insert_of_not_mem hdX
              have h2 : X.erase dk = X := Finset.erase_eq_of_not_mem hdX
              rw [h1] at hcard
              simp only [List.length_cons, h2]
              push_cast at hcard ⊢
              omega
          have hrec := ih (dk :: seen) (by simp only [List.length_cons]; push_cast; omega) hcard2
          simp only [List.length_cons] at hrec ⊢
          push_cast at hrec ⊢
          omega

theorem pass2_append_spec (m : ℤ) : ∀ (l picked : List Ev),
    ∃ F, pass2 m l picked = picked ++ F ∧ F.Sublist l ∧ (∀ f ∈ F, f ∉ picked) ∧ F.Nodup := by
  intro l
  induction l with
  | nil =>
    intro picked
    exact ⟨[], by simp [pass2], List.nil_sublist _, by simp, List.nodup_nil⟩
  | cons e es ih =>
    intro picked
    by_cases hb : m ≤ (picked.length : ℤ)
    · exact ⟨[], by rw [pass2_cons_full m e es picked hb]; simp,
        List.nil_sublist _, by simp, List.nodup_nil⟩
    · by_cases hm : e ∈ picked
      · obtain ⟨F, h1, h2, h3, h4⟩ := ih picked
        exact ⟨F, by rw [pass2_cons_mem m e es picked hb hm]; exact h1,
          h2.cons e, h3, h4⟩
      · obtain ⟨F, h1, h2, h3, h4⟩ := ih (picked ++ [e])
        refine ⟨e :: F, ?_, h2.cons₂ e, ?_, ?_⟩
        · rw [pass2_cons_new m e es picked hb hm, h1, List.append_assoc]
          rfl
        · intro f hf
          rcases List.mem_cons.mp hf with h5 | h5
          · subst h5; exact hm
          · intro hc
            exact h3 f h5 (List.mem_append_left [e] hc)
        · refine List.nodup_cons.mpr ⟨?_, h4⟩
          intro hc
          exact h3 e hc (List.mem_append_right picked (List.mem_singleton_self e))

theorem insertEv_perm (x : Ev) : ∀ l : List Ev, List.Perm (insertEv x l) (x :: l) := by
  intro l
  induction l with
  | nil => exact List.Perm.refl _
  | cons y ys ih =>
    unfold insertEv
    by_cases h : rkey y ≤ rkey x
    · rw [if_pos h]
    · rw [if_neg h]
      exact (List.Perm.cons y ih).trans (List.Perm.swap x y ys)

theorem sortEv_perm (l : List Ev) : List.Perm (sortEv l) l := by
  induction l with
  | nil => exact List.Perm.refl _
  | cons x xs ih =>
    exact (insertEv_perm x (sortEv xs)).trans (List.Perm.cons x ih)

theorem truthyKey_attach (w : RW) (e : Ev) : truthyKey (attach w e) = truthyKey e := rfl

theorem keyFinset_sortEv_attach (w : RW) (ev : List Ev) :
    keyFinset (sortEv (ev.map (attach w))) = keyFinset ev := by
  unfold keyFinset
  have h1 : List.Perm ((sortEv (ev.map (attach w))).filterMap truthyKey)
      ((ev.map (attach w)).filterMap truthyKey) :=
    (sortEv_perm (ev.map (attach w))).filterMap truthyKey
  rw [List.toFinset_eq_of_perm _ _ h1]
  congr 1
  rw [List.filterMap_map]
  rfl

theorem rerankPolicy_snd (cits : List Citation) (ev : List Ev) (w : RW) :
    (rerankPolicy cits ev w).2 = rerankEvidence w ev := rfl

/-- C3 counterexample: with doc_diversity_target 3 but max_evidence_items 2,
three evidence items with distinct doc keys all survive the diversity pass, so
the output has 3 items although the claim bounds it by max_evidence_items = 2. -/
theorem c3_counterexample :
    ((rerankPolicy []
        [⟨none, some "a", none, none, none, none, none, some 1, none, none, none⟩,
         ⟨none, some "b", none, none, none, none, none, some 1, none, none, none⟩,
         ⟨none, some "c", none, none, none, none, none, some 1, none, none, none⟩]
        { defaultWeights with max_evidence_items := 2 }).2.length : ℤ)
      > ({ defaultWeights with max_evidence_items := 2 } : RW).max_evidence_items := by
  have hsc : ∀ k : String, scoreItem "" 1 k { defaultWeights with max_evidence_items := 2 } = 1 := by
    intro k
    norm_num [scoreItem, defaultWeights, c3Hits, alGet, List.foldl]
  have hat : ∀ k : String,
      attach { defaultWeights with max_evidence_items := 2 }
        ⟨none, some k, none, none, none, none, none, some 1, none, none, none⟩
      = ⟨none, some k, none, none, none, none, none, some 1, none, none, some 1⟩ := by
    intro k
    simp only [attach, evalScore, orStr, Option.getD_some, Option.getD_none]
    rw [hsc k]
  rw [rerankPolicy_snd]
  simp only [rerankEvidence, List.map_cons, List.map_nil, hat]
  have hsort : sortEv
      [⟨none, some "a", none, none, none, none, none, some 1, none, none, some 1⟩,
       ⟨none, some "b", none, none, none, none, none, some 1, none, none, some 1⟩,
       ⟨none, some "c", none, none, none, none, none, some 1, none, none, some 1⟩]
      = [⟨none, some "a", none, none, none, none, none, some 1, none, none, some 1⟩,
         ⟨none, some "b", none, none, none, none, none, some 1, none, none, some 1⟩,
         ⟨none, some "c", none, none, none, none, none, some 1, none, none, some 1⟩] := by
    simp only [sortEv, List.foldr_cons, List.foldr_nil, insertEv, rkey, Option.getD_some]
    norm_num
  rw [hsort]
  have hp1 : pass1 ({ defaultWeights with max_evidence_items := 2 } : RW).doc_diversity_target
      [⟨none, some "a", none, none, none, none, none, some 1, none, none, some 1⟩,
       ⟨none, some "b", none, none, none, none, none, some 1, none, none, some 1⟩,
       ⟨none, some "c", none, none, none, none, none, some 1, none, none, some 1⟩] []
      = [⟨none, some "a", none, none, none, none, none, some 1, none, none, some 1⟩,
         ⟨none, some "b", none, none, none, none, none, some 1, none, none, some 1⟩,
         ⟨none, some "c", none, none, none, none, none, some 1, none, none, some 1⟩] := by
    rw [pass1_cons_pick _ _ _ _ "a" (by decide) (by simp) (by norm_num [defaultWeights])]
    rw [pass1_cons_pick _ _ _ _ "b" (by decide) (by simp) (by norm_num [defaultWeights])]
    rw [pass1_cons_pick_break _ _ _ _ "c" (by decide) (by simp) (by norm_num [defaultWeights])]
  rw [hp1]
  rw [pass2_cons_full _ _ _ _ (by norm_num [defaultWeights])]
  norm_num [defaultWeights]

/-- C3 amended: under the (default-satisfied) side condition
1 ≤ doc_diversity_target ≤ max_evidence_items, the output has at most
max_evidence_items items, and when the input holds at least
doc_diversity_target distinct non-empty doc_key values the first
doc_diversity_target outputs have pairwise distinct doc_key values. -/
theorem c3_amended_length_and_diversity (cits : List Citation) (ev : List Ev) (w : RW)
    (h1 : 1 ≤ w.doc_diversity_target) (h2 : w.doc_diversity_target ≤ w.max_evidence_items) :
    (((rerankPolicy cits ev w).2.length : ℤ) ≤ w.max_evidence_items) ∧
    (w.doc_diversity_target ≤ ((keyFinset ev).card : ℤ) →
      ((rerankPolicy cits ev w).2.take w.doc_diversity_target.toNat).Pairwise
        (fun a b => a.doc_key ≠ b.doc_key)) := by
  rw [rerankPolicy_snd]
  simp only [rerankEvidence]
  constructor
  · have hlP := pass1_length_le w.doc_diversity_target (sortEv (ev.map (attach w))) []
      (by simpa using h1)
    simp only [List.length_nil, Nat.cast_zero, sub_zero] at hlP
    exact pass2_length_le w.max_evidence_items _ _ (le_trans hlP h2)
  · intro hcard
    have hreach := pass1_reaches w.doc_diversity_target (sortEv (ev.map (attach w))) []
      (by simpa using h1)
      (by
        simp only [List.length_nil, Nat.cast_zero, zero_add, List.toFinset_nil,
          Finset.sdiff_empty]
        rw [keyFinset_sortEv_attach]
        exact hcard)
    simp only [List.length_nil, Nat.cast_zero, sub_zero] at hreach
    have hPnat : (pass1 w.doc_diversity_target (sortEv (ev.map (attach w))) []).length
        = w.doc_diversity_target.toNat := by omega
    obtain ⟨F, hO, _, _, _⟩ :=
      pass2_append_spec w.max_evidence_items (sortEv (ev.map (attach w)))
        (pass1 w.doc_diversity_target (sortEv (ev.map (attach w))) [])
    rw [hO, ← hPnat, List.take_left]
    have hpw := (pass1_keys w.doc_diversity_target (sortEv (ev.map (attach w))) []).2
    refine hpw.imp ?_
    intro a b hne hdk
    apply hne
    unfold truthyKey
    rw [hdk]

/-- C3 amended witness: three distinct-key items under the default weights
(target 3 ≤ max 10) give an output of at most 10 items. -/
theorem c3_witness :
    (1 ≤ defaultWeights.doc_diversity_target
      ∧ defaultWeights.doc_diversity_target ≤ defaultWeights.max_evidence_items) ∧
    ((rerankPolicy []
        [⟨none, some "a", none, none, none, none, none, some 1, none, none, none⟩,
         ⟨none, some "b", none, none, none, none, none, some 1, none, none, none⟩,
         ⟨none, some "c", none, none, none, none, none, some 1, none, none, none⟩]
        defaultWeights).2.length : ℤ) ≤ defaultWeights.max_evidence_items := by
  refine ⟨⟨by norm_num [defaultWeights], by norm_num [defaultWeights]⟩, ?_⟩
  exact (c3_amended_length_and_diversity []
    [⟨none, some "a", none, none, none, none, none, some 1, none, none, none⟩,
     ⟨none, some "b", none, none, none, none, none, some 1, none, none, none⟩,
     ⟨none, some "c", none, none, none, none, none, some 1, none, none, none⟩]
    defaultWeights (by norm_num [defaultWeights]) (by norm_num [defaultWeights])).1

/-! ## Occurrence-order lemmas (C8) -/

theorem prec_lift {α : Type} {l : List α} {a b x : α} (h : Prec l a b) : Prec (x :: l) a b :=
  h.cons x

theorem prec_head {α : Type} {l : List α} {a b : α} (h : b ∈ l) : Prec (a :: l) a b :=
  List.Sublist.cons₂ a (List.singleton_sublist.mpr h)

theorem prec_strip {α : Type} {l : List α} {a b x : α} (h : Prec (x :: l) a b) (hne : a ≠ x) :
    Prec l a b := by
  cases h with
  | cons _ h2 => exact h2
  | cons₂ _ h2 => exact absurd rfl hne

theorem prec_total {α : Type} {l : List α} {a b : α} (ha : a ∈ l) (hb : b ∈ l) (hne : a ≠ b) :
    Prec l a b ∨ Prec l b a := by
  induction l with
  | nil => cases ha
  | cons x xs ih =>
    rcases List.mem_cons.mp ha with rfl | ha2
    · rcases List.mem_cons.mp hb with rfl | hb2
      · exact absurd rfl hne
      · exact Or.inl (prec_head hb2)
    · rcases List.mem_cons.mp hb with rfl | hb2
      · exact Or.inr (prec_head ha2)
      · rcases ih ha2 hb2 with h | h
        · exact Or.inl (prec_lift h)
        · exact Or.inr (prec_lift h)

theorem prec_antisymm {α : Type} : ∀ {l : List α} {a b : α},
    l.Nodup → Prec l a b → Prec l b a → False := by
  intro l
  induction l with
  | nil => intro a b _ h _; cases h
  | cons x xs ih =>
    intro a b hnd hab hba
    obtain ⟨hx, hxs⟩ := List.nodup_cons.mp hnd
    cases hab with
    | cons _ hab2 =>
      cases hba with
      | cons _ hba2 => exact ih hxs hab2 hba2
      | cons₂ _ hba2 => exact hx (hab2.subset (by simp))
    | cons₂ _ hab2 =>
      cases hba with
      | cons _ hba2 => exact hx (hba2.subset (by simp))
      | cons₂ _ hba2 => exact hx (hab2.subset (by simp))

theorem pairwise_prec_self {α : Type} : ∀ l : List α, l.Pairwise (Prec l) := by
  intro l
  induction l with
  | nil => exact List.Pairwise.nil
  | cons x xs ih =>
    refine List.pairwise_cons.mpr ⟨fun y hy => prec_head hy, ?_⟩
    exact ih.imp (fun h => prec_lift h)

theorem pairwise_rel_of_prec {α : Type} {R : α → α → Prop} {l : List α} {a b : α}
    (hp : l.Pairwise R) (hab : Prec l a b) : R a b := by
  have h2 : List.Pairwise R [a, b] := hp.sublist hab
  exact (List.pairwise_cons.mp h2).1 b (by simp)

theorem sublist_of_pairwise_prec {α : Type} : ∀ {l s : List α},
    l.Nodup → (∀ a ∈ s, a ∈ l) → s.Pairwise (Prec l) → s.Sublist l := by
  intro l
  induction l with
  | nil =>
    intro s _ hs _
    cases s with
    | nil => exact List.nil_sublist _
    | cons a as => exact absurd (hs a (by simp)) (List.not_mem_nil a)
  | cons x xs ih =>
    intro s hnd hmem hpw
    obtain ⟨hx, hxs⟩ := List.nodup_cons.mp hnd
    by_cases hxy : x ∈ s
    · cases s with
      | nil => simp at hxy
      | cons s0 rest =>
        have hs0 : s0 = x := by
          by_contra hne
          rcases List.mem_cons.mp hxy with h1 | h2
          · exact hne h1.symm
          · have hp := (List.pairwise_cons.mp hpw).1 x h2
            have := prec_strip hp hne
            exact hx (this.subset (by simp))
        subst hs0
        have hmem' : ∀ a ∈ rest, a ∈ xs := by
          intro a ha
          rcases List.mem_cons.mp (hmem a (List.mem_cons_of_mem s0 ha)) with h1 | h2
          · exfalso
            have hp := (List.pairwise_cons.mp hpw).1 a ha
            rw [h1] at hp
            cases hp with
            | cons _ h3 => exact hx (h3.subset (by simp))
            | cons₂ _ h3 => exact hx (h3.subset (by simp))
          · exact h2
        refine List.Sublist.cons₂ s0 (ih hxs hmem' ?_)
        have hrest := (List.pairwise_cons.mp hpw).2
        refine hrest.imp_of_mem ?_
        intro a b ha hb hp
        refine prec_strip hp (fun he => ?_)
        exact hx (he ▸ hmem' a ha)
    · have hmem' : ∀ a ∈ s, a ∈ xs := by
        intro a ha
        rcases List.mem_cons.mp (hmem a ha) with h1 | h2
        · exact absurd (h1 ▸ ha) hxy
        · exact h2
      have hpw' : s.Pairwise (Prec xs) := by
        refine hpw.imp_of_mem ?_
        intro a b ha hb hp
        exact prec_strip hp (fun he => hxy (he ▸ ha))
      exact (ih hxs hmem' hpw').cons x

/-! ## Sortedness and stability of the descending sort (C8) -/

theorem insertEv_sorted (x : Ev) : ∀ {l : List Ev},
    l.Pairwise (fun a b => rkey b ≤ rkey a) →
    (insertEv x l).Pairwise (fun a b => rkey b ≤ rkey a) := by
  intro l
  induction l with
  | nil => intro _; simp [insertEv]
  | cons y ys ih =>
    intro hp
    obtain ⟨hy, hys⟩ := List.pairwise_cons.mp hp
    unfold insertEv
    by_cases h : rkey y ≤ rkey x
    · rw [if_pos h]
      refine List.pairwise_cons.mpr ⟨?_, hp⟩
      intro b hb
      rcases List.mem_cons.mp hb with rfl | hb2
      · exact h
      · exact (hy b hb2).trans h
    · rw [if_neg h]
      refine List.pairwise_cons.mpr ⟨?_, ih hys⟩
      intro b hb
      rcases List.mem_cons.mp ((insertEv_perm x ys).mem_iff.mp hb) with rfl | hb2
      · exact (not_le.mp h).le
      · exact hy b hb2

theorem sortEv_sorted (l : List Ev) :
    (sortEv l).Pairwise (fun a b => rkey b ≤ rkey a) := by
  induction l with
  | nil => simp [sortEv]
  | cons x xs ih => exact insertEv_sorted x ih

theorem insertEv_pairwise (Q : Ev → Ev → Prop) (hQdesc : ∀ {a b : Ev}, Q a b → rkey b ≤ rkey a)
    (x : Ev) : ∀ {m : List Ev}, m.Pairwise Q →
    (∀ y ∈ m, (rkey y ≤ rkey x → Q x y) ∧ (rkey x < rkey y → Q y x)) →
    (insertEv x m).Pairwise Q := by
  intro m
  induction m with
  | nil => intro _ _; simp [insertEv]
  | cons y ys ih =>
    intro hp hcond
    obtain ⟨hy, hys⟩ := List.pairwise_cons.mp hp
    unfold insertEv
    by_cases h : rkey y ≤ rkey x
    · rw [if_pos h]
      refine List.pairwise_cons.mpr ⟨?_, hp⟩
      intro b hb
      rcases List.mem_cons.mp hb with rfl | hb2
      · exact (hcond b (by simp)).1 h
      · exact (hcond b (by simp [hb2])).1 ((hQdesc (hy b hb2)).trans h)
    · rw [if_neg h]
      refine List.pairwise_cons.mpr ⟨?_, ih hys (fun z hz => hcond z (by simp [hz]))⟩
      intro b hb
      rcases List.mem_cons.mp ((insertEv_perm x ys).mem_iff.mp hb) with rfl | hb2
      · exact (hcond y (by simp)).2 (not_le.mp h)
      · exact hy b hb2

theorem sortEv_stable : ∀ (l : List Ev), l.Nodup →
    (sortEv l).Pairwise (fun a b => rkey b < rkey a ∨ (rkey a = rkey b ∧ Prec l a b)) := by
  intro l
  induction l with
  | nil => intro _; simp [sortEv]
  | cons x xs ih =>
    intro hnd
    obtain ⟨hx, hxs⟩ := List.nodup_cons.mp hnd
    have base : (sortEv xs).Pairwise
        (fun a b => rkey b < rkey a ∨ (rkey a = rkey b ∧ Prec (x :: xs) a b)) :=
      (ih hxs).imp (fun h => h.imp id (fun h2 => ⟨h2.1, prec_lift h2.2⟩))
    refine insertEv_pairwise _ ?_ x base ?_
    · intro a b h
      rcases h with h | h
      · exact h.le
      · exact h.1.symm.le
    · intro y hy
      have hyx : y ∈ xs := (sortEv_perm xs).mem_iff.mp hy
      constructor
      · intro hle
        rcases hle.lt_or_eq with h | h
        · exact Or.inl h
        · exact Or.inr ⟨h.symm, prec_head hyx⟩
      · intro hlt
        exact Or.inl hlt

theorem prec_transfer (O : List Ev) (hnd : O.Nodup) {x y : Ev} (hx : x ∈ O) (hy : y ∈ O)
    (hne : x ≠ y) (hk : rkey y ≤ rkey x) (hp : Prec O x y) : Prec (sortEv O) x y := by
  have hxs : x ∈ sortEv O := (sortEv_perm O).mem_iff.mpr hx
  have hys : y ∈ sortEv O := (sortEv_perm O).mem_iff.mpr hy
  rcases prec_total hxs hys hne with h | h
  · exact h
  · exfalso
    have hrel := pairwise_rel_of_prec (sortEv_stable O hnd) h
    rcases hrel with h2 | h2
    · exact absurd hk (not_le.mpr h2)
    · exact prec_antisymm hnd hp h2.2

/-! ## Provenance of the diversity pass (C8) -/

theorem prec_append_mid {α : Type} : ∀ {P F : List α} {a b : α},
    a ∈ P → b ∈ F → Prec (P ++ F) a b := by
  intro P
  induction P with
  | nil => intro F a b ha _; cases ha
  | cons p P' ih =>
    intro F a b ha hb
    rcases List.mem_cons.mp ha with rfl | ha2
    · exact prec_head (by simp [hb])
    · exact prec_lift (ih ha2 hb)

theorem pass1_sublist (t : ℤ) : ∀ (l : List Ev) (seen : List String),
    (pass1 t l seen).Sublist l := by
  intro l
  induction l with
  | nil => intro seen; simp [pass1]
  | cons e es ih =>
    intro seen
    cases he : truthyKey e with
    | none => rw [pass1_cons_none t e es seen he]; exact (ih seen).cons e
    | some dk =>
      by_cases hm : dk ∈ seen
      · rw [pass1_cons_seen t e es seen dk he hm]; exact (ih seen).cons e
      · by_cases hb : t ≤ (seen.length + 1 : ℤ)
        · rw [pass1_cons_pick_break t e es seen dk he hm hb]
          exact (List.nil_sublist es).cons₂ e
        · rw [pass1_cons_pick t e es seen dk he hm hb]
          exact (ih (dk :: seen)).cons₂ e

theorem pass1_all_seen (t : ℤ) : ∀ (l : List Ev) (seen : List String),
    (∀ e ∈ l, ∀ dk, truthyKey e = some dk → dk ∈ seen) → pass1 t l seen = [] := by
  intro l
  induction l with
  | nil => intro seen _; rfl
  | cons e es ih =>
    intro seen h
    cases he : truthyKey e with
    | none =>
      rw [pass1_cons_none t e es seen he]
      exact ih seen (fun x hx => h x (List.mem_cons_of_mem e hx))
    | some dk =>
      rw [pass1_cons_seen t e es seen dk he (h e (by simp) dk he)]
      exact ih seen (fun x hx => h x (List.mem_cons_of_mem e hx))

theorem pass1_cover (t : ℤ) : ∀ (l : List Ev) (seen : List String) (e : Ev),
    e ∈ l → ∀ dk, truthyKey e = some dk → dk ∉ seen →
    (∃ q ∈ pass1 t l seen, truthyKey q = some dk ∧ (Prec l q e ∨ q = e)) ∨
    (t ≤ (seen.length + (pass1 t l seen).length : ℤ) ∧ pass1 t l seen ≠ [] ∧
      ∀ q ∈ pass1 t l seen, Prec l q e) := by
  intro l
  induction l with
  | nil => intro seen e he; cases he
  | cons x es ih =>
    intro seen e he dk hdk hdks
    cases hx : truthyKey x with
    | none =>
      rw [pass1_cons_none t x es seen hx]
      have hees : e ∈ es := by
        rcases List.mem_cons.mp he with rfl | h2
        · rw [hx] at hdk; cases hdk
        · exact h2
      rcases ih seen e hees dk hdk hdks with ⟨q, hq, hkq, hp⟩ | ⟨h1, h2, h3⟩
      · exact Or.inl ⟨q, hq, hkq, hp.imp prec_lift id⟩
      · exact Or.inr ⟨h1, h2, fun q hq => prec_lift (h3 q hq)⟩
    | some dkx =>
      by_cases hmx : dkx ∈ seen
      · rw [pass1_cons_seen t x es seen dkx hx hmx]
        have hees : e ∈ es := by
          rcases List.mem_cons.mp he with rfl | h2
          · rw [hx] at hdk
            exact absurd (hmx) (Option.some_inj.mp hdk ▸ hdks)
          · exact h2
        rcases ih seen e hees dk hdk hdks with ⟨q, hq, hkq, hp⟩ | ⟨h1, h2, h3⟩
        · exact Or.inl ⟨q, hq, hkq, hp.imp prec_lift id⟩
        · exact Or.inr ⟨h1, h2, fun q hq => prec_lift (h3 q hq)⟩
      · by_cases hbrk : t ≤ (seen.length + 1 : ℤ)
        · rw [pass1_cons_pick_break t x es seen dkx hx hmx hbrk]
          rcases List.mem_cons.mp he with rfl | h2
          · exact Or.inl ⟨e, by simp, hdk, Or.inr rfl⟩
          · by_cases hkeq : dk = dkx
            · exact Or.inl ⟨x, by simp, by rw [hx, hkeq], Or.inl (prec_head h2)⟩
            · refine Or.inr ⟨by simpa using hbrk, by simp, ?_⟩
              intro q hq
              rw [List.mem_singleton] at hq
              subst hq
              exact prec_head h2
        · rw [pass1_cons_pick t x es seen dkx hx hmx hbrk]
          rcases List.mem_cons.mp he with rfl | h2
          · exact Or.inl ⟨e, by simp, hdk, Or.inr rfl⟩
          · by_cases hkeq : dk = dkx
            · exact Or.inl ⟨x, by simp, by rw [hx, hkeq], Or.inl (prec_head h2)⟩
            · have hdks' : dk ∉ dkx :: seen := by
                intro hc
                rcases List.mem_cons.mp hc with h3 | h3
                · exact hkeq h3
                · exact hdks h3
              rcases ih (dkx :: seen) e h2 dk hdk hdks' with ⟨q, hq, hkq, hp⟩ | ⟨h1, h3, h4⟩
              · exact Or.inl ⟨q, List.mem_cons_of_mem x hq, hkq, hp.imp prec_lift id⟩
              · refine Or.inr ⟨?_, by simp, ?_⟩
                · simp only [List.length_cons] at h1 ⊢
                  push_cast at h1 ⊢
                  omega
                · intro q hq
                  rcases List.mem_cons.mp hq with rfl | hq2
                  · exact prec_head h2
                  · exact prec_lift (h4 q hq2)

theorem pass1_break_len (t : ℤ) : ∀ (l : List Ev) (seen : List String),
    t ≤ (seen.length + (pass1 t l seen).length : ℤ) → pass1 t l seen ≠ [] →
    (seen.length + (pass1 t l seen).length : ℤ) = max t (seen.length + 1) := by
  intro l
  induction l with
  | nil => intro seen _ hne; exact absurd rfl hne
  | cons e es ih =>
    intro seen hle hne
    cases he : truthyKey e with
    | none =>
      rw [pass1_cons_none t e es seen he] at hle hne ⊢
      exact ih seen hle hne
    | some dk =>
      by_cases hm : dk ∈ seen
      · rw [pass1_cons_seen t e es seen dk he hm] at hle hne ⊢
        exact ih seen hle hne
      · by_cases hb : t ≤ (seen.length + 1 : ℤ)
        · rw [pass1_cons_pick_break t e es seen dk he hm hb]
          simp only [List.length_singleton]
          omega
        · rw [pass1_cons_pick t e es seen dk he hm hb] at hle ⊢
          have hne' : pass1 t es (dk :: seen) ≠ [] := by
            intro hc
            rw [hc] at hle
            simp at hle
            omega
          have hle' : t ≤ ((dk :: seen).length + (pass1 t es (dk :: seen)).length : ℤ) := by
            simp only [List.length_cons] at hle ⊢
            push_cast at hle ⊢
            omega
          have hrec := ih (dk :: seen) hle' hne'
          simp only [List.length_cons] at hrec ⊢
          push_cast at hrec ⊢
          omega

/-! ## The second pass replays the first run (C8) -/

theorem pass1_exact (t : ℤ) : ∀ (T P : List Ev) (seen : List String) (b : Bool),
    T.Nodup →
    P.Sublist T →
    (∀ p ∈ P, ∃ dk, truthyKey p = some dk ∧ dk ∉ seen) →
    P.Pairwise (fun a b => truthyKey a ≠ truthyKey b) →
    (b = true → P ≠ []) →
    (b = true → t ≤ (seen.length + P.length : ℤ) ∧
      ((seen.length + P.length : ℤ) ≤ t ∨ P.length ≤ 1)) →
    (b = false → (seen.length + P.length : ℤ) < t) →
    (∀ e ∈ T, e ∉ P → ∀ dk, truthyKey e = some dk →
      dk ∈ seen ∨ (∃ q ∈ P, truthyKey q = some dk ∧ Prec T q e) ∨
      (b = true ∧ ∀ q ∈ P, Prec T q e)) →
    pass1 t T seen = P := by
  intro T
  induction T with
  | nil =>
    intro P seen b _ hsub _ _ _ _ _ _
    rw [List.sublist_nil.mp hsub]
    rfl
  | cons x T' ih =>
    intro P seen b hnd hsub hkeys hpw hne hnumT hnumF hcov
    obtain ⟨hxT, hndT'⟩ := List.nodup_cons.mp hnd
    by_cases hxP : x ∈ P
    · cases P with
      | nil => simp at hxP
      | cons p P' =>
        have hpx : p = x := by
          rcases List.mem_cons.mp hxP with h1 | h2
          · exact h1.symm
          · cases hsub with
            | cons₂ _ h3 =>
              have := (List.pairwise_cons.mp hpw).1 x h2
              exact absurd rfl this
            | cons _ h3 => exact absurd (h3.subset hxP) hxT
        subst hpx
        obtain ⟨dk, hdk, hdks⟩ := hkeys p (by simp)
        by_cases hbreak : t ≤ (seen.length + 1 : ℤ)
        · cases b with
          | false =>
            exfalso
            have := hnumF rfl
            simp only [List.length_cons] at this
            push_cast at this
            omega
          | true =>
            have hP' : P' = [] := by
              obtain ⟨h1, h2⟩ := hnumT rfl
              simp only [List.length_cons] at h1 h2
              push_cast at h1 h2
              rcases h2 with h2 | h2
              · have : P'.length = 0 := by omega
                exact List.length_eq_zero.mp this
              · have : P'.length = 0 := by omega
                exact List.length_eq_zero.mp this
            subst hP'
            exact pass1_cons_pick_break t p T' seen dk hdk hdks hbreak
        · rw [pass1_cons_pick t p T' seen dk hdk hdks hbreak]
          congr 1
          have hsub' : P'.Sublist T' := by
            cases hsub with
            | cons₂ _ h3 => exact h3
            | cons _ h3 => exact absurd (h3.subset (by simp)) hxT
          have hkeys' : ∀ q ∈ P', ∃ dk', truthyKey q = some dk' ∧ dk' ∉ dk :: seen := by
            intro q hq
            obtain ⟨dk', h1, h2⟩ := hkeys q (List.mem_cons_of_mem p hq)
            refine ⟨dk', h1, ?_⟩
            intro hc
            rcases List.mem_cons.mp hc with h3 | h3
            · subst h3
              exact (List.pairwise_cons.mp hpw).1 q hq (by rw [hdk, h1])
            · exact h2 h3
          have hpw' := (List.pairwise_cons.mp hpw).2
          have hmemP' : ∀ q ∈ P', q ∈ T' := fun q hq => hsub'.subset hq
          apply ih P' (dk :: seen) b hndT' hsub' hkeys' hpw'
          · intro hb
            obtain ⟨h1, _⟩ := hnumT hb
            simp only [List.length_cons] at h1
            intro hc
            rw [hc] at h1
            simp at h1
            omega
          · intro hb
            obtain ⟨h1, h2⟩ := hnumT hb
            simp only [List.length_cons] at h1 h2 ⊢
            push_cast at h1 h2 ⊢
            constructor
            · omega
            · rcases h2 with h2 | h2
              · left; omega
              · right; omega
          · intro hb
            have h1 := hnumF hb
            simp only [List.length_cons] at h1 ⊢
            push_cast at h1 ⊢
            omega
          · intro e heT' heP' dk' hdk'
            have heT : e ∈ p :: T' := List.mem_cons_of_mem p heT'
            have hep : e ≠ p := fun hc => hxT (hc ▸ heT')
            have heP : e ∉ p :: P' := by
              intro hc
              rcases List.mem_cons.mp hc with h3 | h3
              · exact hep h3
              · exact heP' h3
            rcases hcov e heT heP dk' hdk' with h1 | ⟨q, hq, hkq, hprec⟩ | ⟨hb, hall⟩
            · exact Or.inl (List.mem_cons_of_mem dk h1)
            · rcases List.mem_cons.mp hq with rfl | hq2
              · left
                rw [hdk] at hkq
                exact (Option.some_inj.mp hkq) ▸ List.mem_cons_self dk seen
              · right; left
                exact ⟨q, hq2, hkq, prec_strip hprec (fun hc => hxT (hc ▸ hmemP' q hq2))⟩
            · right; right
              refine ⟨hb, ?_⟩
              intro q hq
              exact prec_strip (hall q (List.mem_cons_of_mem p hq))
                (fun hc => hxT (hc ▸ hmemP' q hq))
    · have hsub' : P.Sublist T' := by
        cases hsub with
        | cons _ h3 => exact h3
        | cons₂ _ h3 => exact absurd (List.mem_cons_self _ _) hxP
      have hmemP : ∀ q ∈ P, q ∈ T' := fun q hq => hsub'.subset hq
      have hcov' : ∀ e ∈ T', e ∉ P → ∀ dk, truthyKey e = some dk →
          dk ∈ seen ∨ (∃ q ∈ P, truthyKey q = some dk ∧ Prec T' q e) ∨
          (b = true ∧ ∀ q ∈ P, Prec T' q e) := by
        intro e heT' heP dk hdk
        rcases hcov e (List.mem_cons_of_mem x heT') heP dk hdk with h1 | ⟨q, hq, hkq, hprec⟩ | ⟨hb, hall⟩
        · exact Or.inl h1
        · right; left
          exact ⟨q, hq, hkq, prec_strip hprec (fun hc => hxT (hc ▸ hmemP q hq))⟩
        · right; right
          exact ⟨hb, fun q hq => prec_strip (hall q hq) (fun hc => hxT (hc ▸ hmemP q hq))⟩
      cases hxk : truthyKey x with
      | none =>
        rw [pass1_cons_none t x T' seen hxk]
        exact ih P seen b hndT' hsub' hkeys hpw hne hnumT hnumF hcov'
      | some dkx =>
        have hdkseen : dkx ∈ seen := by
          rcases hcov x (by simp) hxP dkx hxk with h1 | ⟨q, hq, _, hprec⟩ | ⟨hb, hall⟩
          · exact h1
          · exfalso
            cases hprec with
            | cons _ h4 => exact hxT (h4.subset (by simp))
            | cons₂ _ h4 => exact hxP hq
          · exfalso
            have hPne := hne hb
            cases P with
            | nil => exact hPne rfl
            | cons p P' =>
              have hprec := hall p (by simp)
              cases hprec with
              | cons _ h4 => exact hxT (h4.subset (by simp))
              | cons₂ _ h4 => exact hxP (by simp)
        rw [pass1_cons_seen t x T' seen dkx hxk hdkseen]
        exact ih P seen b hndT' hsub' hkeys hpw hne hnumT hnumF hcov'

theorem pass2_exact (m : ℤ) : ∀ (T' F' Prem P0 F0 : List Ev),
    T'.Nodup →
    List.Perm T' (Prem ++ F') →
    (∀ x ∈ Prem, x ∈ P0) →
    (∀ f ∈ F', f ∉ P0 ++ F0) →
    F'.Nodup →
    F'.Sublist T' →
    (((P0 ++ F0).length + F'.length : ℤ) ≤ m ∨ F' = []) →
    pass2 m T' (P0 ++ F0) = P0 ++ F0 ++ F' := by
  intro T'
  induction T' with
  | nil =>
    intro F' Prem P0 F0 _ hperm _ _ _ _ _
    have h0 : Prem ++ F' = [] := hperm.symm.eq_nil
    obtain ⟨h1, h2⟩ := List.append_eq_nil.mp h0
    subst h2
    simp [pass2]
  | cons e T'' ih =>
    intro F' Prem P0 F0 hnd hperm hPrem hdisj hndF hsubF hlen
    obtain ⟨heT, hndT⟩ := List.nodup_cons.mp hnd
    by_cases hb : m ≤ ((P0 ++ F0).length : ℤ)
    · rw [pass2_cons_full m e T'' (P0 ++ F0) hb]
      have hF : F' = [] := by
        rcases hlen with h | h
        · have : F'.length = 0 := by omega
          exact List.length_eq_zero.mp this
        · exact h
      rw [hF, List.append_nil]
    · have hmem : e ∈ Prem ++ F' := hperm.mem_iff.mp (by simp)
      rcases List.mem_append.mp hmem with hePrem | heF
      · have hePicked : e ∈ P0 ++ F0 := List.mem_append_left F0 (hPrem e hePrem)
        rw [pass2_cons_mem m e T'' (P0 ++ F0) hb hePicked]
        have heF' : e ∉ F' := fun hc => hdisj e hc hePicked
        have hperm' : List.Perm T'' (Prem.erase e ++ F') := by
          have h1 := hperm.erase e
          rw [List.erase_cons_head] at h1
          rwa [List.erase_append_left F' hePrem] at h1
        have hsubF' : F'.Sublist T'' := by
          cases hsubF with
          | cons _ h3 => exact h3
          | cons₂ _ h3 => exact absurd (List.mem_cons_self _ _) heF'
        exact ih F' (Prem.erase e) P0 F0 hndT hperm'
          (fun x hx => hPrem x (List.mem_of_mem_erase hx)) hdisj hndF hsubF' hlen
      · have heP : e ∉ P0 ++ F0 := hdisj e heF
        rw [pass2_cons_new m e T'' (P0 ++ F0) hb heP]
        obtain ⟨F'', hF'⟩ : ∃ F'', F' = e :: F'' := by
          cases hsubF with
          | cons₂ _ h3 => exact ⟨_, rfl⟩
          | cons _ h3 => exact absurd (h3.subset heF) heT
        subst hF'
        obtain ⟨heF'', hndF''⟩ := List.nodup_cons.mp hndF
        have hperm' : List.Perm T'' (Prem ++ F'') := by
          have h1 := hperm.erase e
          rw [List.erase_cons_head] at h1
          have heP0 : e ∉ Prem := fun hc => heP (List.mem_append_left F0 (hPrem e hc))
          rw [List.erase_append_right _ heP0, List.erase_cons_head] at h1
          exact h1
        have hdisj' : ∀ f ∈ F'', f ∉ P0 ++ (F0 ++ [e]) := by
          intro f hf hc
          have h2 := hdisj f (List.mem_cons_of_mem e hf)
          rcases List.mem_append.mp hc with hc1 | hc2
          · exact h2 (List.mem_append_left F0 hc1)
          · rcases List.mem_append.mp hc2 with hc3 | hc4
            · exact h2 (List.mem_append_right P0 hc3)
            · rw [List.mem_singleton] at hc4
              exact heF'' (hc4 ▸ hf)
        have hsubF' : F''.Sublist T'' := by
          cases hsubF with
          | cons₂ _ h3 => exact h3
          | cons _ h3 => exact absurd (h3.subset (by simp)) heT
        have hlen' : (((P0 ++ (F0 ++ [e])).length + F''.length : ℤ) ≤ m ∨ F'' = []) := by
          rcases hlen with h | h
          · left
            simp only [List.length_append, List.length_cons, List.length_singleton,
              List.length_nil] at h ⊢
            push_cast at h ⊢
            omega
          · simp at h
        have key := ih F'' Prem P0 (F0 ++ [e]) hndT hperm' hPrem hdisj' hndF'' hsubF' hlen'
        rw [List.append_assoc P0 F0 [e], key]
        simp

/-! ## Idempotence of the rerank pipeline (C8) -/

theorem attach_attach (w : RW) (e : Ev) : attach w (attach w e) = attach w e := rfl

theorem map_attach_self (w : RW) : ∀ (O : List Ev), (∀ e ∈ O, attach w e = e) →
    O.map (attach w) = O := by
  intro O
  induction O with
  | nil => intro _; rfl
  | cons x xs ih =>
    intro h
    rw [List.map_cons, h x (by simp), ih (fun e he => h e (List.mem_cons_of_mem x he))]

theorem rerank_pass_idem (tt mm : ℤ) (S : List Ev)
    (hSsorted : S.Pairwise (fun a b => rkey b ≤ rkey a)) :
    pass2 mm (sortEv (pass2 mm S (pass1 tt S [])))
        (pass1 tt (sortEv (pass2 mm S (pass1 tt S []))) [])
      = pass2 mm S (pass1 tt S []) := by
  obtain ⟨F, hOPF, hFsub, hFdisj, hFnodup⟩ := pass2_append_spec mm S (pass1 tt S [])
  have hlenO := pass2_len_or mm S (pass1 tt S [])
  rw [hOPF] at hlenO ⊢
  set P := pass1 tt S [] with hPdef
  have hP1 := pass1_keys tt S []
  have hPkeys : ∀ p ∈ P, ∃ dk, truthyKey p = some dk ∧ dk ∉ ([] : List String) := by
    intro p hp
    obtain ⟨dk, h1, h2⟩ := hP1.1 p hp
    exact ⟨dk, h1, h2⟩
  have hPpw : P.Pairwise (fun a b => truthyKey a ≠ truthyKey b) := hP1.2
  have hPnodup : P.Nodup := hPpw.imp (fun hne heq => hne (by rw [heq]))
  have hPsub : P.Sublist S := pass1_sublist tt S []
  have hPFnodup : (P ++ F).Nodup :=
    List.nodup_append.mpr ⟨hPnodup, hFnodup, fun a ha hb => hFdisj a hb ha⟩
  have hT := sortEv_perm (P ++ F)
  have hTnodup : (sortEv (P ++ F)).Nodup := hT.nodup_iff.mpr hPFnodup
  have hPsorted : P.Pairwise (fun a b => rkey b ≤ rkey a) := hSsorted.sublist hPsub
  have hFsorted : F.Pairwise (fun a b => rkey b ≤ rkey a) := hSsorted.sublist hFsub
  have htransfer : ∀ x y : Ev, x ∈ P ++ F → y ∈ P ++ F → x ≠ y → rkey y ≤ rkey x →
      Prec (P ++ F) x y → Prec (sortEv (P ++ F)) x y :=
    fun x y hx hy hne hk hp => prec_transfer (P ++ F) hPFnodup hx hy hne hk hp
  have hPprecT : P.Pairwise (Prec (sortEv (P ++ F))) := by
    have h1 := (hPsorted.and hPnodup).and (pairwise_prec_self P)
    refine h1.imp ?_
    rintro a b ⟨⟨hle, hne⟩, hprec⟩
    have hprec2 : Prec (P ++ F) a b := hprec.trans (List.sublist_append_left P F)
    exact htransfer a b (hprec2.subset (by simp)) (hprec2.subset (by simp)) hne hle hprec2
  have hPsubT : P.Sublist (sortEv (P ++ F)) :=
    sublist_of_pairwise_prec hTnodup
      (fun a ha => hT.mem_iff.mpr (List.mem_append_left F ha)) hPprecT
  have hFprecT : F.Pairwise (Prec (sortEv (P ++ F))) := by
    have h1 := (hFsorted.and hFnodup).and (pairwise_prec_self F)
    refine h1.imp ?_
    rintro a b ⟨⟨hle, hne⟩, hprec⟩
    have hprec2 : Prec (P ++ F) a b := hprec.trans (List.sublist_append_right P F)
    exact htransfer a b (hprec2.subset (by simp)) (hprec2.subset (by simp)) hne hle hprec2
  have hFsubT : F.Sublist (sortEv (P ++ F)) :=
    sublist_of_pairwise_prec hTnodup
      (fun a ha => hT.mem_iff.mpr (List.mem_append_right P ha)) hFprecT
  have hconv : ∀ e ∈ F, ∀ q ∈ P, Prec S q e → Prec (sortEv (P ++ F)) q e := by
    intro e heF q hq hprec
    have hle : rkey e ≤ rkey q :=
      @pairwise_rel_of_prec Ev (fun a b => rkey b ≤ rkey a) S q e hSsorted hprec
    have hne : q ≠ e := fun hc => hFdisj e heF (hc ▸ hq)
    have hpo : Prec (P ++ F) q e := prec_append_mid hq heF
    exact htransfer q e (List.mem_append_left F hq) (List.mem_append_right P heF) hne hle hpo
  have hlenF : ((P ++ ([] : List Ev)).length + F.length : ℤ) ≤ mm ∨ F = [] := by
    rcases hlenO with h | h
    · left
      simp only [List.length_append, List.length_nil] at h ⊢
      push_cast at h ⊢
      omega
    · right
      have : P.length + F.length = P.length := by
        conv_rhs => rw [← h]
        simp [List.length_append]
      have h0 : F.length = 0 := by omega
      exact List.length_eq_zero.mp h0
  by_cases hPnil : P = []
  · rw [hPnil] at hOPF ⊢
    simp only [List.nil_append] at hOPF ⊢
    have hfalsy : ∀ e ∈ sortEv F, ∀ dk, truthyKey e = some dk → dk ∈ ([] : List String) := by
      intro e he dk hdk
      exfalso
      have heF : e ∈ F := (sortEv_perm F).mem_iff.mp he
      have heS : e ∈ S := hFsub.subset heF
      rcases pass1_cover tt S [] e heS dk hdk (by simp) with ⟨q, hq, _, _⟩ | ⟨_, h2, _⟩
      · rw [← hPdef, hPnil] at hq
        cases hq
      · rw [← hPdef] at h2
        exact h2 hPnil
    rw [pass1_all_seen tt (sortEv F) [] hfalsy]
    have hFnodupT : (sortEv F).Nodup := (sortEv_perm F).nodup_iff.mpr hFnodup
    have hFsubTF : F.Sublist (sortEv F) := by
      have hFprecTF : F.Pairwise (Prec (sortEv F)) := by
        have h1 := (hFsorted.and hFnodup).and (pairwise_prec_self F)
        refine h1.imp ?_
        rintro a b ⟨⟨hle, hne⟩, hprec⟩
        exact prec_transfer F hFnodup (hprec.subset (by simp)) (hprec.subset (by simp))
          hne hle hprec
      exact sublist_of_pairwise_prec hFnodupT
        (fun a ha => (sortEv_perm F).mem_iff.mpr ha) hFprecTF
    have key := pass2_exact mm (sortEv F) F [] [] [] hFnodupT
      (by simpa using sortEv_perm F) (by simp) (by simp) hFnodup hFsubTF
      (by
        rcases hlenF with h | h
        · left
          simp only [hPnil, List.length_append, List.length_nil] at h ⊢
          omega
        · right; exact h)
    simpa using key
  · have hcovT : ∀ (bb : Bool), (bb = true → tt ≤ (P.length : ℤ)) →
        (bb = false → (P.length : ℤ) < tt) →
        ∀ e ∈ sortEv (P ++ F), e ∉ P → ∀ dk, truthyKey e = some dk →
        dk ∈ ([] : List String) ∨
        (∃ q ∈ P, truthyKey q = some dk ∧ Prec (sortEv (P ++ F)) q e) ∨
        (bb = true ∧ ∀ q ∈ P, Prec (sortEv (P ++ F)) q e) := by
      intro bb hbt hbf e he heP dk hdk
      have hePF : e ∈ P ++ F := hT.mem_iff.mp he
      have heF : e ∈ F := by
        rcases List.mem_append.mp hePF with h | h
        · exact absurd h heP
        · exact h
      have heS : e ∈ S := hFsub.subset heF
      rcases pass1_cover tt S [] e heS dk hdk (by simp) with ⟨q, hq, hkq, hp⟩ | ⟨h1, _, h3⟩
      · rw [← hPdef] at hq
        right; left
        refine ⟨q, hq, hkq, ?_⟩
        rcases hp with hp | heq
        · exact hconv e heF q hq hp
        · subst heq
          exact absurd hq (hFdisj _ heF)
      · rw [← hPdef] at h3
        cases bb with
        | false =>
          exfalso
          have := hbf rfl
          simp only [List.length_nil, Nat.cast_zero, zero_add] at h1
          rw [← hPdef] at h1
          omega
        | true =>
          right; right
          exact ⟨rfl, fun q hq => hconv e heF q hq (h3 q hq)⟩
    rcases le_or_lt tt (P.length : ℤ) with hbr | hbr
    · have hblen := pass1_break_len tt S [] (by simpa using hbr) (by rw [← hPdef]; exact hPnil)
      rw [← hPdef] at hblen
      simp only [List.length_nil, Nat.cast_zero, zero_add] at hblen
      have hp1 : pass1 tt (sortEv (P ++ F)) [] = P := by
        apply pass1_exact tt (sortEv (P ++ F)) P [] true hTnodup hPsubT hPkeys hPpw
          (fun _ => hPnil)
        · intro _
          simp only [List.length_nil, Nat.cast_zero, zero_add]
          refine ⟨hbr, ?_⟩
          rcases le_or_lt tt 1 with h1 | h1
          · right
            have : max tt 1 = 1 := max_eq_right h1
            omega
          · left
            have : max tt 1 = tt := max_eq_left h1.le
            omega
        · intro h; cases h
        · exact hcovT true (fun _ => hbr) (fun h => by cases h)
      rw [hp1]
      have key := pass2_exact mm (sortEv (P ++ F)) F P P [] hTnodup hT
        (fun x hx => hx) (by simpa using hFdisj) hFnodup hFsubT hlenF
      simpa using key
    · have hp1 : pass1 tt (sortEv (P ++ F)) [] = P := by
        apply pass1_exact tt (sortEv (P ++ F)) P [] false hTnodup hPsubT hPkeys hPpw
          (fun h => by cases h)
        · intro h; cases h
        · intro _
          simp only [List.length_nil, Nat.cast_zero, zero_add]
          exact hbr
        · exact hcovT false (fun h => by cases h) (fun _ => hbr)
      rw [hp1]
      have key := pass2_exact mm (sortEv (P ++ F)) F P P [] hTnodup hT
        (fun x hx => hx) (by simpa using hFdisj) hFnodup hFsubT hlenF
      simpa using key

theorem rerankEvidence_idem (w : RW) (ev : List Ev) :
    rerankEvidence w (rerankEvidence w ev) = rerankEvidence w ev := by
  have hfix : ∀ e ∈ rerankEvidence w ev, attach w e = e := by
    intro e he
    obtain ⟨F, hOPF, hFsub, _, _⟩ :=
      pass2_append_spec w.max_evidence_items (sortEv (ev.map (attach w)))
        (pass1 w.doc_diversity_target (sortEv (ev.map (attach w))) [])
    have heS : e ∈ sortEv (ev.map (attach w)) := by
      have he2 : e ∈ pass1 w.doc_diversity_target (sortEv (ev.map (attach w))) [] ++ F := by
        rw [← hOPF]
        exact he
      rcases List.mem_append.mp he2 with h | h
      · exact (pass1_sublist _ _ _).subset h
      · exact hFsub.subset h
    obtain ⟨x, _, rfl⟩ :=
      List.mem_map.mp ((sortEv_perm (ev.map (attach w))).mem_iff.mp heS)
    exact attach_attach w x
  show pass2 w.max_evidence_items (sortEv ((rerankEvidence w ev).map (attach w)))
      (pass1 w.doc_diversity_target (sortEv ((rerankEvidence w ev).map (attach w))) [])
    = rerankEvidence w ev
  rw [map_attach_self w (rerankEvidence w ev) hfix]
  exact rerank_pass_idem w.doc_diversity_target w.max_evidence_items
    (sortEv (ev.map (attach w))) (sortEv_sorted (ev.map (attach w)))

/-- C8: applying rerank_policy a second time to its own output under the same
weights returns the same evidence list in the same order (the recomputed
scores agree, the stable sort and the two passes reproduce the same
selection). -/
theorem c8_rerank_fixed_point (cits : List Citation) (ev : List Ev) (w : RW) :
    (rerankPolicy (rerankPolicy cits ev w).1 (rerankPolicy cits ev w).2 w).2
      = (rerankPolicy cits ev w).2 := by
  rw [rerankPolicy_snd, rerankPolicy_snd, rerankEvidence_idem]

end PlanaSpec
